import Mathlib

/-!
Shallow embedding of the melody-harmonization program (files `main.py` and
`DmitriiAlekhin.py`).  Python integers become `ℤ`, Python floats produced by
`random.random()` become `ℚ` (all float constants in the program are exact
small integers, so integer/float arithmetic is exact), fallible constructors
become `Except String`, and the ambient pseudo-random source becomes an
explicit stream `g : ℕ → ℚ` of draws in `[0,1)` consumed at an explicit
cursor.  Suffix `D` marks definitions embedded from `DmitriiAlekhin.py`
where the two files differ; unsuffixed definitions are shared or come from
`main.py`.
-/

namespace IaiMusic

/-- Monadic map over `Except`, the embedding of a Python list comprehension
whose body may raise: the first raise aborts the whole comprehension. -/
def mapE {α β : Type} (f : α → Except String β) : List α → Except String (List β)
  | [] => .ok []
  | a :: as => do
    let b ← f a
    let bs ← mapE f as
    .ok (b :: bs)

/-- `class Note` (fields): midi value, start delay and playtime, in ticks. -/
structure Note where
  midi_value : ℤ
  start_delay : ℤ
  playtime : ℤ
deriving DecidableEq

/-- `Note.octave_value`: `midi_value % 12` (Python `%` on a nonnegative
left operand agrees with `Int.emod`). -/
def Note.octave_value (n : Note) : ℤ := n.midi_value % 12

/-- `Note.octave`: `(midi_value - 12) // 12`, Python floor division. -/
def Note.octave (n : Note) : ℤ := Int.fdiv (n.midi_value - 12) 12

/-- `Note.__len__`: `start_delay + playtime`. -/
def Note.len (n : Note) : ℤ := n.start_delay + n.playtime

/-- `Note.__init__` from `main.py`: validates `0 <= midi_value <= 127` and
`playtime >= 0`; `start_delay` is NOT validated there. -/
def mkNote (midi_value start_delay playtime : ℤ) : Except String Note :=
  if ¬ (0 ≤ midi_value ∧ midi_value ≤ 127) then
    .error "Cannot create note: invalid midi_value"
  else if playtime < 0 then
    .error "Cannot create note: invalid playtime"
  else
    .ok ⟨midi_value, start_delay, playtime⟩

/-- `Note.__init__` from `DmitriiAlekhin.py`: additionally rejects a negative
`start_delay`. -/
def mkNoteD (midi_value start_delay playtime : ℤ) : Except String Note :=
  if ¬ (0 ≤ midi_value ∧ midi_value ≤ 127) then
    .error "Cannot create note: invalid midi_value"
  else if playtime < 0 then
    .error "Cannot create note: invalid playtime"
  else if start_delay < 0 then
    .error "Cannot create note: invalid start_delay"
  else
    .ok ⟨midi_value, start_delay, playtime⟩

/-- `Note.change_octave` (main.py): rebuilds the note through the constructor. -/
def Note.change_octave (n : Note) (factor : ℤ) : Except String Note :=
  mkNote (n.midi_value + 12 * factor) n.start_delay n.playtime

/-- `Note.change_octave` (DmitriiAlekhin.py): same, via the stricter constructor. -/
def Note.change_octaveD (n : Note) (factor : ℤ) : Except String Note :=
  mkNoteD (n.midi_value + 12 * factor) n.start_delay n.playtime

/-- `Note.__eq__`: pitch-class equality only. -/
def noteEq (a b : Note) : Bool := a.octave_value == b.octave_value

/-- `class Mode(Enum)` with `MAJOR`, `MINOR`, `DIM`. -/
inductive Mode where
  | MAJOR
  | MINOR
  | DIM
deriving DecidableEq

/-- `Mode.value`: the interval list carried by each enum member. -/
def Mode.value : Mode → List ℤ
  | .MAJOR => [0, 4, 7]
  | .MINOR => [0, 3, 7]
  | .DIM => [0, 3, 6]

/-- `class Chord` (fields). -/
structure Chord where
  notes : List Note
  mode : Mode
  playtime : ℤ
  is_inverted : Bool
deriving DecidableEq

/-- `Chord.__init__` (identical in both files): notes at
`root.midi_value + i` for `i` in the mode's interval list, each with zero
start delay and the chord's playtime; the runtime `isinstance` check on the
enum value is vacuous in the typed embedding. -/
def mkChord (note : Note) (mode : Mode) (playtime : ℤ) : Except String Chord := do
  let notes ← mapE (fun i => mkNote (i + note.midi_value) 0 playtime) mode.value
  .ok ⟨notes, mode, playtime, false⟩

/-- `Chord.__eq__`: Python list equality over notes, where each element
comparison is `Note.__eq__` (pitch-class equality). -/
def chordEq (a b : Chord) : Bool :=
  a.notes.length == b.notes.length &&
    (a.notes.zip b.notes).all (fun p => noteEq p.1 p.2)

/-- `Chord.first_inverse` from `main.py`: copies the chord through the
constructor (`__copy__`), replaces the note list by `notes[1:]` plus the root
raised an octave, and sets `is_inverted`.  An empty note list would be an
`IndexError` in Python, embedded as an error. -/
def Chord.first_inverse (c : Chord) : Except String Chord :=
  match c.notes with
  | [] => .error "list index out of range"
  | root :: rest => do
    let _copy ← mkChord root c.mode c.playtime
    let newNote ← mkNote (root.midi_value + 12) root.start_delay root.playtime
    .ok ⟨rest ++ [newNote], c.mode, c.playtime, true⟩

/-- `Chord.first_inverse` from `DmitriiAlekhin.py`: additionally raises
`TypeError` for a DIM chord. -/
def Chord.first_inverseD (c : Chord) : Except String Chord :=
  if c.mode = Mode.DIM then .error "Chord is not invertible"
  else
    match c.notes with
    | [] => .error "list index out of range"
    | root :: rest => do
      let _copy ← mkChord root c.mode c.playtime
      let newNote ← mkNoteD (root.midi_value + 12) root.start_delay root.playtime
      .ok ⟨rest ++ [newNote], c.mode, c.playtime, true⟩

/-- `Chord.second_inverse` (main.py): two first inverses, then every note an
octave down. -/
def Chord.second_inverse (c : Chord) : Except String Chord := do
  let c1 ← c.first_inverse
  let c2 ← c1.first_inverse
  let notes ← mapE (fun n => n.change_octave (-1)) c2.notes
  .ok ⟨notes, c2.mode, c2.playtime, c2.is_inverted⟩

/-- `Chord.second_inverse` (DmitriiAlekhin.py). -/
def Chord.second_inverseD (c : Chord) : Except String Chord := do
  let c1 ← c.first_inverseD
  let c2 ← c1.first_inverseD
  let notes ← mapE (fun n => n.change_octaveD (-1)) c2.notes
  .ok ⟨notes, c2.mode, c2.playtime, c2.is_inverted⟩

/-- The pitch-class set of a chord's notes. -/
def Chord.pcSet (c : Chord) : Finset ℤ := (c.notes.map Note.octave_value).toFinset

/-- `class Bar` (fields): note list plus accumulated length. -/
structure Bar where
  notes : List Note
  length : ℤ
deriving DecidableEq

/-- `Bar.MAX_LENGTH` (`TIME_SIGN` in DmitriiAlekhin.py): 384 ticks. -/
def Bar.MAX_LENGTH : ℤ := 384

/-- `Bar.__init__`: empty note list, zero length. -/
def mkBar : Bar := ⟨[], 0⟩

/-- `Bar.append_delay`: raises on overflow, otherwise adds to the length. -/
def Bar.append_delay (b : Bar) (delay : ℤ) : Except String Bar :=
  if b.length + delay > Bar.MAX_LENGTH then .error "Bar length overflow error"
  else .ok ⟨b.notes, b.length + delay⟩

/-- `Bar.append_note`: raises on overflow, otherwise appends the note and adds
`start_delay + playtime` (= `len(note)`) to the length. -/
def Bar.append_note (b : Bar) (note : Note) : Except String Bar :=
  if b.length + note.len > Bar.MAX_LENGTH then .error "Bar length overflow error"
  else .ok ⟨b.notes ++ [note], b.length + note.start_delay + note.playtime⟩

/-- `class Melody` (fields): all notes plus the derived bar segmentation. -/
structure Melody where
  notes : List Note
  bars : List Bar
deriving DecidableEq

/-- Inner `while start_delay != 0 and predicate(...)` loop of
`Melody.__init__`, with the bar list split into the already-full prefix
`done` and the remaining suffix `todo` (`bar_index = done.length`); Python's
`bar_index != len(self.bars)` is `todo ≠ []` (the `note_index` half of the
predicate is fixed inside the loop and checked by the caller).  A step that
leaves a nonzero remaining delay has filled the current bar exactly to
capacity, so the source's `remainder == 0 / bar_index += 1 / continue` path
is fused into moving that bar to `done`. -/
def consumeDelay (done todo : List Bar) (delay : ℤ) :
    Except String (List Bar × List Bar) :=
  if delay = 0 then .ok (done, todo)
  else
    match todo with
    | [] => .ok (done, [])
    | bar :: rest =>
      let remainder := Bar.MAX_LENGTH - bar.length
      if remainder = 0 then consumeDelay (done ++ [bar]) rest delay
      else do
        let partial_playtime := min remainder delay
        let bar' ← bar.append_delay partial_playtime
        if delay - partial_playtime = 0 then .ok (done, bar' :: rest)
        else consumeDelay (done ++ [bar']) rest (delay - partial_playtime)

/-- Inner `while playtime != 0 and predicate(...)` loop of `Melody.__init__`:
like `consumeDelay` but appending zero-delay sub-notes of the current note's
pitch. -/
def consumeNote (done todo : List Bar) (midi : ℤ) (playtime : ℤ) :
    Except String (List Bar × List Bar) :=
  if playtime = 0 then .ok (done, todo)
  else
    match todo with
    | [] => .ok (done, [])
    | bar :: rest =>
      let remainder := Bar.MAX_LENGTH - bar.length
      if remainder = 0 then consumeNote (done ++ [bar]) rest midi playtime
      else do
        let partial_playtime := min remainder playtime
        let note ← mkNote midi 0 partial_playtime
        let bar' ← bar.append_note note
        if playtime - partial_playtime = 0 then .ok (done, bar' :: rest)
        else consumeNote (done ++ [bar']) rest midi (playtime - partial_playtime)

/-- Outer `while self.__predicate(bar_index, note_index)` loop of
`Melody.__init__`: per note, consume its start delay, then its playtime. -/
def segment : List Note → List Bar → List Bar → Except String (List Bar)
  | [], done, todo => .ok (done ++ todo)
  | _ :: _, done, [] => .ok done
  | note :: restNotes, done, todo => do
    let (done₁, todo₁) ← consumeDelay done todo note.start_delay
    let (done₂, todo₂) ← consumeNote done₁ todo₁ note.midi_value note.playtime
    segment restNotes done₂ todo₂

/-- `Melody.__init__`: allocate `total_length // MAX_LENGTH` empty bars, then
pack the notes into them. -/
def mkMelody (notes : List Note) : Except String Melody := do
  let total_length := (notes.map Note.len).sum
  let bars₀ := List.replicate (Int.fdiv total_length Bar.MAX_LENGTH).toNat mkBar
  let bars ← segment notes [] bars₀
  .ok ⟨notes, bars⟩

/-- `KeyChords.__MAJOR_STEPS`. -/
def MAJOR_STEPS : List ℤ := [0, 2, 4, 5, 7, 9, 11]

/-- `KeyChords.__MINOR_STEPS`. -/
def MINOR_STEPS : List ℤ := [0, 2, 3, 5, 7, 8, 10]

/-- `KeyChords.__SHARP_LITERALS`, embedded verbatim from the source: index 8
holds the string `C#` (where the canonical table would hold `G#`). -/
def SHARP_LITERALS : List String :=
  ["C", "C#", "D", "D#", "E", "F", "F#", "G", "C#", "A", "A#", "B"]

/-- `KeyChords.__MAJOR_MODES`. -/
def MAJOR_MODES : List Mode :=
  [Mode.MAJOR, Mode.MINOR, Mode.MINOR, Mode.MAJOR, Mode.MAJOR, Mode.MINOR, Mode.DIM]

/-- `KeyChords.__MINOR_MODES`. -/
def MINOR_MODES : List Mode :=
  [Mode.MINOR, Mode.DIM, Mode.MAJOR, Mode.MINOR, Mode.MAJOR, Mode.MAJOR, Mode.DIM]

/-- `class KeyChords` (fields). -/
structure KeyChords where
  initial_note : Note
  mode : Mode
  chords : List Chord
  perfect_chords : List Chord
deriving DecidableEq

/-- `list.index` for the literal lookup: Python raises `ValueError` when the
literal is absent, and returns the first matching index otherwise. -/
def literalIndex (literal : String) : Except String ℤ :=
  match SHARP_LITERALS.findIdx? (fun s => s == literal) with
  | none => .error "is not in list"
  | some i => .ok (i : ℤ)

/-- `min(note.octave for note in melody.notes)`: Python `min` raises on an
empty sequence. -/
def minOctave (melody : Melody) : Except String ℤ :=
  match melody.notes.map Note.octave with
  | [] => .error "min() arg is an empty sequence"
  | x :: xs => .ok (xs.foldl min x)

/-- Shared first phase of `KeyChords.__init__` (identical in both files):
tonic placement, scale-degree notes and the seven degree chords. -/
def keyChordsBase (melody : Melody) (literal : String) (mode : Mode)
    (playtime : ℤ) : Except String (Note × List Chord) := do
  let min_octave ← minOctave melody
  let idx ← literalIndex literal
  let midi_value := idx + 12 * max (min_octave - 1) 2
  let initial_note ← mkNote midi_value 0 playtime
  let patterns := if mode = Mode.MAJOR then MAJOR_MODES else MINOR_MODES
  let steps := if mode = Mode.MAJOR then MAJOR_STEPS else MINOR_STEPS
  if patterns.length ≠ steps.length then
    .error "Different lengths of patterns and steps while generating consonant chords"
  else do
    let notes ← mapE (fun i => mkNote (initial_note.midi_value + i) 0 playtime) steps
    let chords ← mapE (fun p => mkChord p.1 p.2 playtime) (notes.zip patterns)
    .ok (initial_note, chords)

/-- `KeyChords.__init__` from `main.py`: perfect chords are the degree chords
whose mode equals the key mode; the candidate list appends first and second
inverses of the non-DIM degree chords. -/
def keyChords (melody : Melody) (literal : String) (mode : Mode)
    (playtime : ℤ := 384) : Except String KeyChords := do
  let (initial_note, chords) ← keyChordsBase melody literal mode playtime
  let perfect_chords := chords.filter (fun c => c.mode == mode)
  let first_inverses ← mapE Chord.first_inverse
    (chords.filter (fun c => ¬ c.mode = Mode.DIM))
  let second_inverses ← mapE Chord.second_inverse
    (chords.filter (fun c => ¬ c.mode = Mode.DIM))
  .ok ⟨initial_note, mode, chords ++ first_inverses ++ second_inverses, perfect_chords⟩

/-- `KeyChords.__init__` from `DmitriiAlekhin.py`: additionally extends the
perfect chords with their first and second inverses. -/
def keyChordsD (melody : Melody) (literal : String) (mode : Mode)
    (playtime : ℤ := 384) : Except String KeyChords := do
  let (initial_note, chords) ← keyChordsBase melody literal mode playtime
  let perfect_base := chords.filter (fun c => c.mode == mode)
  let perfect_first ← mapE Chord.first_inverseD perfect_base
  let perfect_second ← mapE Chord.second_inverseD perfect_base
  let first_inverses ← mapE Chord.first_inverseD
    (chords.filter (fun c => ¬ c.mode = Mode.DIM))
  let second_inverses ← mapE Chord.second_inverseD
    (chords.filter (fun c => ¬ c.mode = Mode.DIM))
  .ok ⟨initial_note, mode, chords ++ first_inverses ++ second_inverses,
    perfect_base ++ perfect_first ++ perfect_second⟩

/-- `Chord.fitness` from `main.py` with its default weights
(`inverted_chord_penalty=200`, `perfect_chord_factor=80`,
`equal_note_factor=400`, `preferred_distance=6`, `distance_penalty=10e4`,
i.e. the exact float `100000`).  `self in key_chords.perfect_chords` is
Python membership via `Chord.__eq__`. -/
def Chord.fitness (c : Chord) (key_chords : KeyChords) (playing_bar : Bar) : ℤ :=
  let v0 : ℤ := if c.is_inverted then -200 else 0
  let v1 := v0 + (if key_chords.perfect_chords.any (fun pc => chordEq pc c) then 80 else -80)
  let v2 := c.notes.foldl
    (fun acc note =>
      (playing_bar.notes.enum).foldl
        (fun acc2 jn =>
          if noteEq note jn.2 then acc2 + 400 * ((c.notes.length : ℤ) - (jn.1 : ℤ))
          else acc2)
        acc)
    v1
  let anyClose := playing_bar.notes.any
    (fun playing_note => c.notes.any
      (fun note => |playing_note.octave_value - note.octave_value| < 6))
  if anyClose then v2 - 100000 else v2

/-- `Chord.__DISSONANT_DISTANCES` (DmitriiAlekhin.py). -/
def DISSONANT_DISTANCES : List ℤ := [0, 1, 2, 6, 9, 10, 11]

/-- `Chord.fitness` from `DmitriiAlekhin.py` with its default weights
(`inverted_or_dim_chord_penalty=400`, `perfect_chord_factor=600`,
`too_high_chord_factor=10e3`, `equal_note_factor=600`,
`distance_factor=10e4`). -/
def Chord.fitnessD (c : Chord) (key_chords : KeyChords) (playing_bar : Bar) : ℤ :=
  let v0 : ℤ := if c.is_inverted then -400 else 400
  let v1 := v0 + (if c.mode = Mode.DIM then -400 else 400)
  let v2 := v1 + (if key_chords.perfect_chords.any (fun pc => chordEq pc c) then 600 else -600)
  let tooHigh := c.notes.any
    (fun note => playing_bar.notes.any
      (fun playing_note => note.octave_value > playing_note.octave_value))
  let v3 := v2 + (if tooHigh then -10000 else 10000)
  let v4 := c.notes.foldl
    (fun acc note =>
      (playing_bar.notes.enum).foldl
        (fun acc2 jn =>
          if noteEq note jn.2 then acc2 + 600 * ((c.notes.length : ℤ) - (jn.1 : ℤ))
          else acc2)
        acc)
    v3
  let anyDissonant := playing_bar.notes.any
    (fun playing_note => c.notes.any
      (fun note =>
        let distance := |playing_note.octave_value - note.octave_value|
        DISSONANT_DISTANCES.contains (min distance |12 - distance|)))
  if anyDissonant then v4 - 100000 else v4 + 100000

/-- `class Progression` (field): the chord list. -/
structure Progression where
  chords : List Chord
deriving DecidableEq

/-- `max(note.midi_value for note in chord.notes)`; a chord built by the
program always has three notes, so the empty default is never consulted. -/
def Chord.maxMidi (c : Chord) : ℤ :=
  match c.notes with
  | [] => 0
  | n :: rest => rest.foldl (fun m x => max m x.midi_value) n.midi_value

/-- `Progression.fitness` from `main.py` with its default weights
(`perfect_chord_factor=10`, `imperfect_chord_penalty=1000`,
`equal_key_chords_factor=7`, `preferred_distance=5`, `distance_factor=10e5`,
`repetition_penalty=10e7`).  `previous_chord` starts as `None`, and
`chord == None` is false under `Chord.__eq__`'s isinstance check. -/
def Progression.fitness (p : Progression) (key_chords : KeyChords)
    (melody : Melody) : ℤ :=
  (p.chords.enum.foldl
    (fun acc ic =>
      let value := acc.1
      let previous_chord := acc.2
      let c := ic.2
      let v1 := value + c.fitness key_chords (melody.bars.getD ic.1 mkBar) * 10
      let v2 := v1 + (if c.mode = key_chords.mode then 7 else -1000)
      let v3 := match previous_chord with
        | none => v2
        | some pc =>
          v2 + (if |c.maxMidi - pc.maxMidi| ≤ 5 then 1000000 else -1000000)
      let v4 := match previous_chord with
        | none => v3
        | some pc => if chordEq c pc then v3 - 100000000 else v3
      (v4, some c))
    ((0 : ℤ), (none : Option Chord))).1

/-- `Progression.fitness` from `DmitriiAlekhin.py`: identical shape, but it
scores chords with `Chord.fitnessD`. -/
def Progression.fitnessD (p : Progression) (key_chords : KeyChords)
    (melody : Melody) : ℤ :=
  (p.chords.enum.foldl
    (fun acc ic =>
      let value := acc.1
      let previous_chord := acc.2
      let c := ic.2
      let v1 := value + c.fitnessD key_chords (melody.bars.getD ic.1 mkBar) * 10
      let v2 := v1 + (if c.mode = key_chords.mode then 7 else -1000)
      let v3 := match previous_chord with
        | none => v2
        | some pc =>
          v2 + (if |c.maxMidi - pc.maxMidi| ≤ 5 then 1000000 else -1000000)
      let v4 := match previous_chord with
        | none => v3
        | some pc => if chordEq c pc then v3 - 100000000 else v3
      (v4, some c))
    ((0 : ℤ), (none : Option Chord))).1

/-! ### The pseudo-random source

An outcome of the pseudo-random source is a pair of abstract streams
consumed at a shared cursor `k` that advances by one per primitive call:
`random.random()` reads the rational draw `floats k ∈ [0,1)`;
`random.randint(a, b)` maps the natural draw `ints k` onto `{a, …, b}` by
`a + ints k % (b - a + 1)` (every value in the range is some outcome) and
raises when the range is empty, as in Python; `random.sample(lst, 2)` maps
two draws onto an ordered pair of distinct positions (every pair is some
outcome) and raises when the list has fewer than two elements. -/

/-- One outcome of the pseudo-random source. -/
structure RandSrc where
  floats : ℕ → ℚ
  ints : ℕ → ℕ

/-- An outcome is valid when every `random.random()` draw lies in `[0,1)`. -/
def validStream (src : RandSrc) : Prop := ∀ n, 0 ≤ src.floats n ∧ src.floats n < 1

/-- `random.randint(a, b)`: empty ranges raise `ValueError`. -/
def randint (a b : ℤ) (r : ℕ) : Except String ℤ :=
  if b < a then .error "empty range for randrange"
  else .ok (a + (r : ℤ) % (b - a + 1))

/-- `random.sample(lst, 2)`: an ordered pair of distinct positions. -/
def sample2 (lst : List Progression) (src : RandSrc) (k : ℕ) :
    Except String (Progression × Progression × ℕ) :=
  if lst.length < 2 then .error "Sample larger than population or is negative"
  else do
    let i ← randint 0 ((lst.length : ℤ) - 1) (src.ints k)
    let j0 ← randint 0 ((lst.length : ℤ) - 2) (src.ints (k + 1))
    let j := if i ≤ j0 then j0 + 1 else j0
    .ok (lst.getD i.toNat ⟨[]⟩, lst.getD j.toNat ⟨[]⟩, k + 2)

/-- `Progression.crossover(parent1, parent2, prob)`: gene `i` comes from
`parent2` when `random() > prob`, else from `parent1`, over the shorter
length; one draw per gene, consumed in order. -/
def Progression.crossover (parent1 parent2 : Progression) (prob : ℚ)
    (src : RandSrc) (k : ℕ) : Progression × ℕ :=
  let m := min parent1.chords.length parent2.chords.length
  let chords := (List.range m).map
    (fun i =>
      if src.floats (k + i) > prob then
        parent2.chords.getD i ⟨[], Mode.MAJOR, 0, false⟩
      else parent1.chords.getD i ⟨[], Mode.MAJOR, 0, false⟩)
  (⟨chords⟩, k + m)

/-- The simultaneous swap
`chords[i], chords[r] = chords[r], chords[i]`. -/
def swapChords (cs : List Chord) (i r : ℕ) : List Chord :=
  (cs.set i (cs.getD r ⟨[], Mode.MAJOR, 0, false⟩)).set r
    (cs.getD i ⟨[], Mode.MAJOR, 0, false⟩)

/-- One pass of the mutation body: for each index `i`, draw once; when the
draw exceeds `change_prob`, draw `randint(0, len - 1)` and swap. -/
def mutateLoop (change_prob : ℚ) (src : RandSrc) :
    List ℕ → List Chord → ℕ → Except String (List Chord × ℕ)
  | [], cs, k => .ok (cs, k)
  | i :: is, cs, k =>
    if src.floats k > change_prob then do
      let r ← randint 0 ((cs.length : ℤ) - 1) (src.ints (k + 1))
      mutateLoop change_prob src is (swapChords cs i r.toNat) (k + 2)
    else
      mutateLoop change_prob src is cs (k + 1)

/-- `Progression.mutate(invoke_prob, change_prob)`: with probability
`invoke_prob` run the swap loop over all indices; in-place semantics become
returning the updated chord list. -/
def Progression.mutate (p : Progression) (invoke_prob change_prob : ℚ)
    (src : RandSrc) (k : ℕ) : Except String (Progression × ℕ) :=
  if src.floats k < invoke_prob then do
    let (cs, k') ← mutateLoop change_prob src (List.range p.chords.length)
      p.chords (k + 1)
    .ok (⟨cs⟩, k')
  else
    .ok (p, k + 1)

/-- `Progression.random_progression`: one uniform pool index per melody bar. -/
def randomProgression (key_chords : KeyChords) (numBars : ℕ) (src : RandSrc)
    (k : ℕ) : Except String (Progression × ℕ) := do
  let picks ← mapE
    (fun i => randint 0 ((key_chords.chords.length : ℤ) - 1) (src.ints (k + i)))
    (List.range numBars)
  .ok (⟨picks.map (fun r => key_chords.chords.getD r.toNat ⟨[], Mode.MAJOR, 0, false⟩)⟩,
    k + numBars)

/-- The initial population of `best_progression`: `population_size` random
progressions. -/
def initPopulation (population_size : ℕ) (key_chords : KeyChords)
    (numBars : ℕ) (src : RandSrc) (k : ℕ) :
    Except String (List Progression × ℕ) :=
  match population_size with
  | 0 => .ok ([], k)
  | n + 1 => do
    let (p, k₁) ← randomProgression key_chords numBars src k
    let (ps, k₂) ← initPopulation n key_chords numBars src k₁
    .ok (p :: ps, k₂)

/-- Stable insertion into a key-descending list: `x` goes before the first
element with a strictly smaller key, matching Python's stable
`sorted(..., reverse=True)`. -/
def insertDesc (key : Progression → ℤ) (x : Progression) :
    List Progression → List Progression
  | [] => [x]
  | y :: ys => if key x > key y then x :: y :: ys else y :: insertDesc key x ys

/-- `sorted(population, key=fitness, reverse=True)` as a stable insertion
sort. -/
def sortDesc (key : Progression → ℤ) : List Progression → List Progression
  | [] => []
  | x :: xs => insertDesc key x (sortDesc key xs)

/-- The refill loop of `best_progression`: `population_size -
selection_factor` times, draw `randint(0, selection_factor - 1)` (the
receiver index — discarded, because `crossover` is a staticmethod), sample
two parents from the growing `survived` list, cross them at the default
`prob = 0.2` and mutate at the defaults `invoke_prob = 0.05`,
`change_prob = 0.5` (main.py), appending the child. -/
def refill (selection_factor : ℕ) (src : RandSrc) :
    ℕ → List Progression → ℕ → Except String (List Progression × ℕ)
  | 0, survived, k => .ok (survived, k)
  | count + 1, survived, k => do
    let _receiver ← randint 0 ((selection_factor : ℤ) - 1) (src.ints k)
    let (parent1, parent2, k₁) ← sample2 survived src (k + 1)
    let (child, k₂) := Progression.crossover parent1 parent2 (1/5) src k₁
    let (child', k₃) ← child.mutate (1/20) (1/2) src k₂
    refill selection_factor src count (survived ++ [child']) k₃

/-- One generation of `best_progression`: rank by fitness descending, keep
the top `selection_factor`, refill to `population_size`. -/
def generationStep (key_chords : KeyChords) (melody : Melody)
    (population_size selection_factor : ℕ) (population : List Progression)
    (src : RandSrc) (k : ℕ) : Except String (List Progression × ℕ) :=
  let sortedPop := sortDesc (fun p => p.fitness key_chords melody) population
  let survived := sortedPop.take selection_factor
  refill selection_factor src (population_size - selection_factor) survived k

/-- `for i in range(generation_limit)` of `best_progression`. -/
def runGenerations (key_chords : KeyChords) (melody : Melody)
    (population_size selection_factor : ℕ) (src : RandSrc) :
    ℕ → List Progression → ℕ → Except String (List Progression × ℕ)
  | 0, population, k => .ok (population, k)
  | n + 1, population, k => do
    let (population', k') ← generationStep key_chords melody population_size
      selection_factor population src k
    runGenerations key_chords melody population_size selection_factor src n
      population' k'

/-- `EvolutionaryAlgorithm.best_progression` (main.py): initialize, evolve
for `generation_limit` generations, sort once more and return the head
(`population[0]`, an `IndexError` on an empty population). -/
def bestProgression (melody : Melody) (key_chords : KeyChords)
    (generation_limit population_size selection_factor : ℕ) (src : RandSrc)
    (k : ℕ) : Except String (Progression × ℕ) := do
  let (population, k₁) ← initPopulation population_size key_chords
    melody.bars.length src k
  let (populationF, k₂) ← runGenerations key_chords melody population_size
    selection_factor src generation_limit population k₁
  match sortDesc (fun p => p.fitness key_chords melody) populationF with
  | [] => .error "list index out of range"
  | p :: _ => .ok (p, k₂)

/-! ### Concrete fixtures used by witnesses and counterexamples -/

/-- A C-major chord at midi 60, as the program's `Chord.__init__` builds it. -/
def chordCmaj : Chord :=
  ⟨[⟨60, 0, 384⟩, ⟨64, 0, 384⟩, ⟨67, 0, 384⟩], Mode.MAJOR, 384, false⟩

/-- A D-minor chord at midi 62. -/
def chordDmin : Chord :=
  ⟨[⟨62, 0, 384⟩, ⟨65, 0, 384⟩, ⟨69, 0, 384⟩], Mode.MINOR, 384, false⟩

/-- A full bar holding one note at midi 60. -/
def barC : Bar := ⟨[⟨60, 0, 384⟩], 384⟩

/-- A one-bar melody holding one note at midi 60. -/
def melodyC : Melody := ⟨[⟨60, 0, 384⟩], [barC]⟩

/-- A one-chord key-chord pool. -/
def kcC : KeyChords := ⟨⟨60, 0, 384⟩, Mode.MAJOR, [chordCmaj], [chordCmaj]⟩

/-- The all-zero outcome: every float draw is 0 (a legal outcome of
`random.random()`) and every integer draw is 0. -/
def zeroSrc : RandSrc := ⟨fun _ => 0, fun _ => 0⟩

/-- The outcome whose float draws are all one half. -/
def halfSrc : RandSrc := ⟨fun _ => 1/2, fun _ => 0⟩

/-! ## Shared helper lemmas -/

instance {ε α : Type} [DecidableEq ε] [DecidableEq α] : DecidableEq (Except ε α)
  | .error e, .error f => decidable_of_iff (e = f) (by simp)
  | .error _, .ok _ => isFalse (by simp)
  | .ok _, .error _ => isFalse (by simp)
  | .ok a, .ok b => decidable_of_iff (a = b) (by simp)

theorem exceptBind_ok {α β : Type} {e : Except String α} {f : α → Except String β}
    {b : β} : (e >>= f) = .ok b ↔ ∃ a, e = .ok a ∧ f a = .ok b := by
  cases e <;> simp [Bind.bind, Except.bind]

theorem mkNote_eq_ok {m s p : ℤ} {n : Note} :
    mkNote m s p = .ok n ↔ 0 ≤ m ∧ m ≤ 127 ∧ 0 ≤ p ∧ n = ⟨m, s, p⟩ := by
  unfold mkNote
  split_ifs with h1 h2
  · simp only [reduceCtorEq, false_iff]
    exact fun h => absurd h.2.2.1 (not_le.mpr h2)
  · simp only [Except.ok.injEq]
    constructor
    · intro h
      exact ⟨h1.1, h1.2, not_lt.mp h2, h.symm⟩
    · intro h
      exact h.2.2.2.symm
  · simp only [reduceCtorEq, false_iff]
    exact fun h => h1 ⟨h.1, h.2.1⟩

theorem mkNoteD_eq_ok {m s p : ℤ} {n : Note} :
    mkNoteD m s p = .ok n ↔ 0 ≤ m ∧ m ≤ 127 ∧ 0 ≤ p ∧ 0 ≤ s ∧ n = ⟨m, s, p⟩ := by
  unfold mkNoteD
  split_ifs with h1 h2 h3
  · simp only [reduceCtorEq, false_iff]
    exact fun h => absurd h.2.2.1 (not_le.mpr h2)
  · simp only [reduceCtorEq, false_iff]
    exact fun h => absurd h.2.2.2.1 (not_le.mpr h3)
  · simp only [Except.ok.injEq]
    constructor
    · intro h
      exact ⟨h1.1, h1.2, not_lt.mp h2, not_lt.mp h3, h.symm⟩
    · intro h
      exact h.2.2.2.2.symm
  · simp only [reduceCtorEq, false_iff]
    exact fun h => h1 ⟨h.1, h.2.1⟩

theorem zeroSrc_valid : validStream zeroSrc := by
  intro n
  constructor <;> norm_num [zeroSrc]

theorem halfSrc_valid : validStream halfSrc := by
  intro n
  constructor <;> norm_num [halfSrc]

theorem mapE_ok_length {α β : Type} {f : α → Except String β} :
    ∀ {l : List α} {l' : List β}, mapE f l = .ok l' → l'.length = l.length := by
  intro l
  induction l with
  | nil =>
    intro l' h
    simp only [mapE, Except.ok.injEq] at h
    subst h
    rfl
  | cons a as ih =>
    intro l' h
    simp only [mapE] at h
    rw [exceptBind_ok] at h
    obtain ⟨b, -, h⟩ := h
    rw [exceptBind_ok] at h
    obtain ⟨bs, hbs, h⟩ := h
    simp only [pure, Except.pure, Except.ok.injEq] at h
    subst h
    simp [ih hbs]

theorem mapE_ok_mem {α β : Type} {f : α → Except String β} :
    ∀ {l : List α} {l' : List β}, mapE f l = .ok l' →
      ∀ b ∈ l', ∃ a ∈ l, f a = .ok b := by
  intro l
  induction l with
  | nil =>
    intro l' h
    simp only [mapE, Except.ok.injEq] at h
    subst h
    simp
  | cons a as ih =>
    intro l' h
    simp only [mapE] at h
    rw [exceptBind_ok] at h
    obtain ⟨b, hb, h⟩ := h
    rw [exceptBind_ok] at h
    obtain ⟨bs, hbs, h⟩ := h
    simp only [pure, Except.pure, Except.ok.injEq] at h
    subst h
    intro x hx
    rcases List.mem_cons.mp hx with rfl | hx
    · exact ⟨a, List.mem_cons_self a as, hb⟩
    · obtain ⟨a', ha', hfa'⟩ := ih hbs x hx
      exact ⟨a', List.mem_cons_of_mem a ha', hfa'⟩

theorem mapE_map_eq {α β γ : Type} {f : α → Except String β} {gfn : β → γ}
    {hfn : α → γ} (hrel : ∀ a b, f a = .ok b → gfn b = hfn a) :
    ∀ {l : List α} {l' : List β}, mapE f l = .ok l' →
      l'.map gfn = l.map hfn := by
  intro l
  induction l with
  | nil =>
    intro l' h
    simp only [mapE, Except.ok.injEq] at h
    subst h
    rfl
  | cons a as ih =>
    intro l' h
    simp only [mapE] at h
    rw [exceptBind_ok] at h
    obtain ⟨b, hb, h⟩ := h
    rw [exceptBind_ok] at h
    obtain ⟨bs, hbs, h⟩ := h
    simp only [pure, Except.pure, Except.ok.injEq] at h
    subst h
    simp [hrel a b hb, ih hbs]

theorem mkChord_ok_mode {note : Note} {mode : Mode} {pt : ℤ} {c : Chord} :
    mkChord note mode pt = .ok c → c.mode = mode ∧ c.is_inverted = false := by
  intro h
  unfold mkChord at h
  rw [exceptBind_ok] at h
  obtain ⟨ns, -, h⟩ := h
  simp only [pure, Except.pure, Except.ok.injEq] at h
  subst h
  exact ⟨rfl, rfl⟩

theorem first_inverse_ok_mode {c c' : Chord} :
    c.first_inverse = .ok c' → c'.mode = c.mode := by
  intro h
  unfold Chord.first_inverse at h
  rcases hn : c.notes with - | ⟨root, rest⟩ <;> rw [hn] at h
  · simp at h
  · rw [exceptBind_ok] at h
    obtain ⟨-, -, h⟩ := h
    rw [exceptBind_ok] at h
    obtain ⟨nn, -, h⟩ := h
    simp only [pure, Except.pure, Except.ok.injEq] at h
    subst h
    rfl

theorem first_inverseD_ok_mode {c c' : Chord} :
    c.first_inverseD = .ok c' → c'.mode = c.mode := by
  intro h
  unfold Chord.first_inverseD at h
  split_ifs at h
  rcases hn : c.notes with - | ⟨root, rest⟩ <;> rw [hn] at h
  · simp at h
  · rw [exceptBind_ok] at h
    obtain ⟨-, -, h⟩ := h
    rw [exceptBind_ok] at h
    obtain ⟨nn, -, h⟩ := h
    simp only [pure, Except.pure, Except.ok.injEq] at h
    subst h
    rfl

theorem second_inverse_ok_mode {c c' : Chord} :
    c.second_inverse = .ok c' → c'.mode = c.mode := by
  intro h
  unfold Chord.second_inverse at h
  rw [exceptBind_ok] at h
  obtain ⟨c1, hc1, h⟩ := h
  rw [exceptBind_ok] at h
  obtain ⟨c2, hc2, h⟩ := h
  rw [exceptBind_ok] at h
  obtain ⟨ns, -, h⟩ := h
  simp only [pure, Except.pure, Except.ok.injEq] at h
  subst h
  have e1 := first_inverse_ok_mode hc1
  have e2 := first_inverse_ok_mode hc2
  simp [e2, e1]

theorem second_inverseD_ok_mode {c c' : Chord} :
    c.second_inverseD = .ok c' → c'.mode = c.mode := by
  intro h
  unfold Chord.second_inverseD at h
  rw [exceptBind_ok] at h
  obtain ⟨c1, hc1, h⟩ := h
  rw [exceptBind_ok] at h
  obtain ⟨c2, hc2, h⟩ := h
  rw [exceptBind_ok] at h
  obtain ⟨ns, -, h⟩ := h
  simp only [pure, Except.pure, Except.ok.injEq] at h
  subst h
  have e1 := first_inverseD_ok_mode hc1
  have e2 := first_inverseD_ok_mode hc2
  simp [e2, e1]

/-! ## C5 — Note construction validation -/

/-- C5 counterexample: in `main.py`, `Note(60, -5, 10)` constructs
successfully even though its start delay is negative, so "fails … if and
only if … the start delay is negative …" is false for that file's
constructor. -/
theorem C5_counterexample :
    ((-5 : ℤ) < 0) ∧ mkNote 60 (-5) 10 = .ok ⟨60, -5, 10⟩ := by
  constructor
  · decide
  · rfl

/-- C5 (amended): `DmitriiAlekhin.py`'s constructor fails exactly when the
pitch is outside 0..127, the start delay is negative, or the playtime is
negative; `main.py`'s constructor does not check the start delay and fails
exactly when the pitch is out of range or the playtime is negative.  On
success both store the arguments unchanged and the pitch class is
`midi_value mod 12`. -/
theorem C5_note_validation (m s p : ℤ) :
    ((∃ n, mkNoteD m s p = .ok n) ↔ 0 ≤ m ∧ m ≤ 127 ∧ 0 ≤ s ∧ 0 ≤ p) ∧
    ((∃ n, mkNote m s p = .ok n) ↔ 0 ≤ m ∧ m ≤ 127 ∧ 0 ≤ p) ∧
    (∀ n, mkNoteD m s p = .ok n →
      n.midi_value = m ∧ n.start_delay = s ∧ n.playtime = p ∧
        n.octave_value = m % 12) ∧
    (∀ n, mkNote m s p = .ok n →
      n.midi_value = m ∧ n.start_delay = s ∧ n.playtime = p ∧
        n.octave_value = m % 12) := by
  refine ⟨⟨?_, ?_⟩, ⟨?_, ?_⟩, ?_, ?_⟩
  · rintro ⟨n, hn⟩
    rw [mkNoteD_eq_ok] at hn
    exact ⟨hn.1, hn.2.1, hn.2.2.2.1, hn.2.2.1⟩
  · rintro ⟨h1, h2, h3, h4⟩
    exact ⟨⟨m, s, p⟩, mkNoteD_eq_ok.mpr ⟨h1, h2, h4, h3, rfl⟩⟩
  · rintro ⟨n, hn⟩
    rw [mkNote_eq_ok] at hn
    exact ⟨hn.1, hn.2.1, hn.2.2.1⟩
  · rintro ⟨h1, h2, h3⟩
    exact ⟨⟨m, s, p⟩, mkNote_eq_ok.mpr ⟨h1, h2, h3, rfl⟩⟩
  · intro n hn
    rw [mkNoteD_eq_ok] at hn
    rcases hn with ⟨-, -, -, -, rfl⟩
    exact ⟨rfl, rfl, rfl, rfl⟩
  · intro n hn
    rw [mkNote_eq_ok] at hn
    rcases hn with ⟨-, -, -, rfl⟩
    exact ⟨rfl, rfl, rfl, rfl⟩

/-- C5 witness: the amended theorem applied at the valid input (60, 2, 3). -/
theorem C5_witness :
    ((∃ n, mkNoteD 60 2 3 = .ok n) ↔
      (0 : ℤ) ≤ 60 ∧ (60 : ℤ) ≤ 127 ∧ (0 : ℤ) ≤ 2 ∧ (0 : ℤ) ≤ 3) ∧
    ((∃ n, mkNote 60 2 3 = .ok n) ↔
      (0 : ℤ) ≤ 60 ∧ (60 : ℤ) ≤ 127 ∧ (0 : ℤ) ≤ 3) ∧
    (∀ n, mkNoteD 60 2 3 = .ok n →
      n.midi_value = 60 ∧ n.start_delay = 2 ∧ n.playtime = 3 ∧
        n.octave_value = 60 % 12) ∧
    (∀ n, mkNote 60 2 3 = .ok n →
      n.midi_value = 60 ∧ n.start_delay = 2 ∧ n.playtime = 3 ∧
        n.octave_value = 60 % 12) :=
  C5_note_validation 60 2 3

/-! ## C9 — fitness evaluation is deterministic and effect-free -/

/-- C9: both chord fitness functions and both progression fitness functions
are pure functions of their inputs — two evaluations on equal chord, pool,
bar/melody state return equal scores (they consume no draws from the random
stream, which they do not even receive), and being Lean functions they
modify nothing. -/
theorem C9_fitness_deterministic (c₁ c₂ : Chord) (kc₁ kc₂ : KeyChords)
    (b₁ b₂ : Bar) (p₁ p₂ : Progression) (m₁ m₂ : Melody) :
    c₁ = c₂ → kc₁ = kc₂ → b₁ = b₂ → p₁ = p₂ → m₁ = m₂ →
    c₁.fitness kc₁ b₁ = c₂.fitness kc₂ b₂ ∧
    c₁.fitnessD kc₁ b₁ = c₂.fitnessD kc₂ b₂ ∧
    p₁.fitness kc₁ m₁ = p₂.fitness kc₂ m₂ ∧
    p₁.fitnessD kc₁ m₁ = p₂.fitnessD kc₂ m₂ := by
  rintro rfl rfl rfl rfl rfl
  exact ⟨rfl, rfl, rfl, rfl⟩

/-- C9 witness: the determinism theorem applied at a concrete chord, pool,
bar, progression and melody. -/
theorem C9_witness :
    chordCmaj.fitness kcC barC = chordCmaj.fitness kcC barC ∧
    chordCmaj.fitnessD kcC barC = chordCmaj.fitnessD kcC barC ∧
    Progression.fitness ⟨[chordCmaj]⟩ kcC melodyC =
      Progression.fitness ⟨[chordCmaj]⟩ kcC melodyC ∧
    Progression.fitnessD ⟨[chordCmaj]⟩ kcC melodyC =
      Progression.fitnessD ⟨[chordCmaj]⟩ kcC melodyC :=
  C9_fitness_deterministic chordCmaj chordCmaj kcC kcC barC barC
    ⟨[chordCmaj]⟩ ⟨[chordCmaj]⟩ melodyC melodyC rfl rfl rfl rfl rfl

/-! ## C7 — inversions preserve harmonic content -/

theorem first_inverse_ok_pcSet {c c' : Chord} :
    c.first_inverse = .ok c' → c'.pcSet = c.pcSet := by
  intro h
  unfold Chord.first_inverse at h
  rcases hn : c.notes with - | ⟨root, rest⟩ <;> rw [hn] at h
  · simp at h
  · rw [exceptBind_ok] at h
    obtain ⟨-, -, h⟩ := h
    rw [exceptBind_ok] at h
    obtain ⟨nn, hnn, h⟩ := h
    simp only [pure, Except.pure, Except.ok.injEq] at h
    subst h
    rw [mkNote_eq_ok] at hnn
    obtain ⟨-, -, -, rfl⟩ := hnn
    have hpc : Note.octave_value ⟨root.midi_value + 12, root.start_delay,
        root.playtime⟩ = root.octave_value := by
      simp only [Note.octave_value]
      omega
    simp only [Chord.pcSet, hn, List.map_append, List.map_cons, List.map_nil,
      List.toFinset_append, List.toFinset_cons, List.toFinset_nil, hpc]
    rw [Finset.union_comm, Finset.insert_union, Finset.empty_union]

theorem first_inverseD_ok_pcSet {c c' : Chord} :
    c.first_inverseD = .ok c' → c'.pcSet = c.pcSet := by
  intro h
  unfold Chord.first_inverseD at h
  split_ifs at h
  rcases hn : c.notes with - | ⟨root, rest⟩ <;> rw [hn] at h
  · simp at h
  · rw [exceptBind_ok] at h
    obtain ⟨-, -, h⟩ := h
    rw [exceptBind_ok] at h
    obtain ⟨nn, hnn, h⟩ := h
    simp only [pure, Except.pure, Except.ok.injEq] at h
    subst h
    rw [mkNoteD_eq_ok] at hnn
    obtain ⟨-, -, -, -, rfl⟩ := hnn
    have hpc : Note.octave_value ⟨root.midi_value + 12, root.start_delay,
        root.playtime⟩ = root.octave_value := by
      simp only [Note.octave_value]
      omega
    simp only [Chord.pcSet, hn, List.map_append, List.map_cons, List.map_nil,
      List.toFinset_append, List.toFinset_cons, List.toFinset_nil, hpc]
    rw [Finset.union_comm, Finset.insert_union, Finset.empty_union]

/-- C7: for every non-diminished chord whose inversion succeeds (all
transposed notes stay in the MIDI range), `first_inverse` preserves the
pitch-class set, in both files; and applying `second_inverse` twice to the
MAJOR chord rooted at midi 60 with playtime 384 yields pitch classes
{0, 4, 7}, in both files. -/
theorem C7_inversion_pitch_classes :
    (∀ c c' : Chord, c.mode ≠ Mode.DIM → c.first_inverse = .ok c' →
      c'.pcSet = c.pcSet) ∧
    (∀ c c' : Chord, c.mode ≠ Mode.DIM → c.first_inverseD = .ok c' →
      c'.pcSet = c.pcSet) ∧
    (chordCmaj.second_inverse >>= Chord.second_inverse).map Chord.pcSet =
      .ok {0, 4, 7} ∧
    (chordCmaj.second_inverseD >>= Chord.second_inverseD).map Chord.pcSet =
      .ok {0, 4, 7} := by
  refine ⟨fun c c' _ h => first_inverse_ok_pcSet h,
    fun c c' _ h => first_inverseD_ok_pcSet h, ?_, ?_⟩ <;> decide

/-- C7 witness: the first inverse of the concrete C-major chord exists and
keeps its pitch-class set. -/
theorem C7_witness :
    chordCmaj.mode ≠ Mode.DIM ∧
    chordCmaj.first_inverse =
      .ok ⟨[⟨64, 0, 384⟩, ⟨67, 0, 384⟩, ⟨72, 0, 384⟩], Mode.MAJOR, 384, true⟩ ∧
    Chord.pcSet ⟨[⟨64, 0, 384⟩, ⟨67, 0, 384⟩, ⟨72, 0, 384⟩], Mode.MAJOR, 384, true⟩ =
      chordCmaj.pcSet :=
  ⟨by decide, by decide,
    C7_inversion_pitch_classes.1 chordCmaj
      ⟨[⟨64, 0, 384⟩, ⟨67, 0, 384⟩, ⟨72, 0, 384⟩], Mode.MAJOR, 384, true⟩
      (by decide) (by decide)⟩

/-! ## C8 — scale-degree chord qualities -/

theorem keyChordsBase_ok {melody : Melody} {literal : String} {mode : Mode}
    {pt : ℤ} {inote : Note} {chords : List Chord} :
    keyChordsBase melody literal mode pt = .ok (inote, chords) →
    chords.map Chord.mode =
      (if mode = Mode.MAJOR then MAJOR_MODES else MINOR_MODES) ∧
    chords.length = 7 := by
  intro h
  unfold keyChordsBase at h
  rw [exceptBind_ok] at h
  obtain ⟨moct, -, h⟩ := h
  rw [exceptBind_ok] at h
  obtain ⟨idx, -, h⟩ := h
  rw [exceptBind_ok] at h
  obtain ⟨n0, -, h⟩ := h
  by_cases hm : mode = Mode.MAJOR
  · simp only [hm, if_true] at h ⊢
    rw [if_neg (by decide)] at h
    rw [exceptBind_ok] at h
    obtain ⟨notes, hnotes, h⟩ := h
    rw [exceptBind_ok] at h
    obtain ⟨cs, hcs, h⟩ := h
    simp only [pure, Except.pure, Except.ok.injEq, Prod.mk.injEq] at h
    obtain ⟨-, rfl⟩ := h
    have hnl : notes.length = MAJOR_STEPS.length := mapE_ok_length hnotes
    have hmap : cs.map Chord.mode = (notes.zip MAJOR_MODES).map Prod.snd :=
      mapE_map_eq (fun a b hb => (mkChord_ok_mode hb).1) hcs
    have hcl := mapE_ok_length hcs
    constructor
    · rw [hmap]
      exact List.map_snd_zip notes MAJOR_MODES (by rw [hnl]; decide)
    · rw [hcl, List.length_zip, hnl]
      decide
  · simp only [if_neg hm] at h ⊢
    rw [if_neg (by decide)] at h
    rw [exceptBind_ok] at h
    obtain ⟨notes, hnotes, h⟩ := h
    rw [exceptBind_ok] at h
    obtain ⟨cs, hcs, h⟩ := h
    simp only [pure, Except.pure, Except.ok.injEq, Prod.mk.injEq] at h
    obtain ⟨-, rfl⟩ := h
    have hnl : notes.length = MINOR_STEPS.length := mapE_ok_length hnotes
    have hmap : cs.map Chord.mode = (notes.zip MINOR_MODES).map Prod.snd :=
      mapE_map_eq (fun a b hb => (mkChord_ok_mode hb).1) hcs
    have hcl := mapE_ok_length hcs
    constructor
    · rw [hmap]
      exact List.map_snd_zip notes MINOR_MODES (by rw [hnl]; decide)
    · rw [hcl, List.length_zip, hnl]
      decide

theorem beq_mode_iff {a b : Mode} : (a == b) = true ↔ a = b := by
  cases a <;> cases b <;> simp_all

/-- C8: every pool built by either file's `KeyChords.__init__` lists, as its
first seven candidate chords (the degree chords, before inversions are
appended), exactly the major-mode quality table for a MAJOR key and the
minor-mode quality table for a MINOR key, and every member of
`perfect_chords` has the pool's own mode. -/
theorem C8_quality_tables (melody : Melody) (literal : String) (mode : Mode)
    (pt : ℤ) (kc : KeyChords) :
    (keyChords melody literal mode pt = .ok kc →
      ((kc.chords.take 7).map Chord.mode =
          (if mode = Mode.MAJOR then MAJOR_MODES else MINOR_MODES) ∧
        kc.mode = mode ∧ ∀ c ∈ kc.perfect_chords, c.mode = mode)) ∧
    (keyChordsD melody literal mode pt = .ok kc →
      ((kc.chords.take 7).map Chord.mode =
          (if mode = Mode.MAJOR then MAJOR_MODES else MINOR_MODES) ∧
        kc.mode = mode ∧ ∀ c ∈ kc.perfect_chords, c.mode = mode)) := by
  constructor
  · intro h
    unfold keyChords at h
    rw [exceptBind_ok] at h
    obtain ⟨⟨inote, chords⟩, hbase, h⟩ := h
    rw [exceptBind_ok] at h
    obtain ⟨fi, -, h⟩ := h
    rw [exceptBind_ok] at h
    obtain ⟨si, -, h⟩ := h
    simp only [pure, Except.pure, Except.ok.injEq] at h
    subst h
    obtain ⟨hmap, hlen⟩ := keyChordsBase_ok hbase
    refine ⟨?_, rfl, ?_⟩
    · have : (chords ++ (fi ++ si)).take 7 = chords := by
        rw [← hlen, List.take_left]
      rw [List.append_assoc, this, hmap]
    · intro c hc
      have := (List.mem_filter.mp hc).2
      exact beq_mode_iff.mp this
  · intro h
    unfold keyChordsD at h
    rw [exceptBind_ok] at h
    obtain ⟨⟨inote, chords⟩, hbase, h⟩ := h
    rw [exceptBind_ok] at h
    obtain ⟨pfi, hpfi, h⟩ := h
    rw [exceptBind_ok] at h
    obtain ⟨psi, hpsi, h⟩ := h
    rw [exceptBind_ok] at h
    obtain ⟨fi, -, h⟩ := h
    rw [exceptBind_ok] at h
    obtain ⟨si, -, h⟩ := h
    simp only [pure, Except.pure, Except.ok.injEq] at h
    subst h
    obtain ⟨hmap, hlen⟩ := keyChordsBase_ok hbase
    have hperf : ∀ c ∈ chords.filter (fun c => c.mode == mode), c.mode = mode :=
      fun c hc => beq_mode_iff.mp (List.mem_filter.mp hc).2
    refine ⟨?_, rfl, ?_⟩
    · have : (chords ++ (fi ++ si)).take 7 = chords := by
        rw [← hlen, List.take_left]
      rw [List.append_assoc, this, hmap]
    · intro c hc
      rcases List.mem_append.mp hc with hc | hc
      · rcases List.mem_append.mp hc with hc | hc
        · exact hperf c hc
        · obtain ⟨a, ha, hfa⟩ := mapE_ok_mem hpfi c hc
          rw [first_inverseD_ok_mode hfa]
          exact hperf a ha
      · obtain ⟨a, ha, hfa⟩ := mapE_ok_mem hpsi c hc
        rw [second_inverseD_ok_mode hfa]
        exact hperf a ha

/-- C8 witness: both constructions applied to the concrete one-note C melody
in MAJOR mode. -/
theorem C8_witness :
    ∃ kc kc' : KeyChords,
      keyChords melodyC "C" Mode.MAJOR 384 = .ok kc ∧
      (kc.chords.take 7).map Chord.mode = MAJOR_MODES ∧
      kc.mode = Mode.MAJOR ∧ (∀ c ∈ kc.perfect_chords, c.mode = Mode.MAJOR) ∧
      keyChordsD melodyC "C" Mode.MAJOR 384 = .ok kc' ∧
      (kc'.chords.take 7).map Chord.mode = MAJOR_MODES ∧
      kc'.mode = Mode.MAJOR ∧ ∀ c ∈ kc'.perfect_chords, c.mode = Mode.MAJOR := by
  rcases hkc : keyChords melodyC "C" Mode.MAJOR 384 with e | kc
  · have hok : (keyChords melodyC "C" Mode.MAJOR 384).isOk = true := by decide
    rw [hkc] at hok
    simp [Except.isOk, Except.toBool] at hok
  rcases hkc' : keyChordsD melodyC "C" Mode.MAJOR 384 with e | kc'
  · have hok : (keyChordsD melodyC "C" Mode.MAJOR 384).isOk = true := by decide
    rw [hkc'] at hok
    simp [Except.isOk, Except.toBool] at hok
  have h1 := (C8_quality_tables melodyC "C" Mode.MAJOR 384 kc).1 hkc
  have h2 := (C8_quality_tables melodyC "C" Mode.MAJOR 384 kc').2 hkc'
  simp only [if_pos rfl] at h1 h2
  exact ⟨kc, kc', rfl, h1.1, h1.2.1, h1.2.2, rfl, h2.1, h2.2.1, h2.2.2⟩

/-! ## C6 — bar capacity -/

theorem consumeDelay_ok :
    ∀ (todo done : List Bar) (delay : ℤ),
      (∀ b ∈ done ++ todo, b.length ≤ Bar.MAX_LENGTH) →
      ∃ done' todo', consumeDelay done todo delay = .ok (done', todo') ∧
        ∀ b ∈ done' ++ todo', b.length ≤ Bar.MAX_LENGTH := by
  intro todo
  induction todo with
  | nil =>
    intro done delay hinv
    rw [consumeDelay]
    split_ifs
    · exact ⟨done, [], rfl, hinv⟩
    · exact ⟨done, [], rfl, hinv⟩
  | cons bar rest ih =>
    intro done delay hinv
    rw [consumeDelay]
    by_cases h0 : delay = 0
    · rw [if_pos h0]
      exact ⟨done, bar :: rest, rfl, hinv⟩
    · rw [if_neg h0]
      dsimp only
      by_cases hrem : Bar.MAX_LENGTH - bar.length = 0
      · rw [if_pos hrem]
        have hinv' : ∀ b ∈ (done ++ [bar]) ++ rest, b.length ≤ Bar.MAX_LENGTH := by
          intro b hb
          apply hinv
          simp only [List.append_assoc, List.singleton_append] at hb ⊢
          exact hb
        exact ih (done ++ [bar]) delay hinv'
      · rw [if_neg hrem]
        have hmin : min (Bar.MAX_LENGTH - bar.length) delay ≤
            Bar.MAX_LENGTH - bar.length := min_le_left _ _
        have hguard : ¬ bar.length + min (Bar.MAX_LENGTH - bar.length) delay >
            Bar.MAX_LENGTH := by omega
        rw [Bar.append_delay, if_neg hguard]
        simp only [Bind.bind, Except.bind]
        have hbar' : (⟨bar.notes, bar.length +
            min (Bar.MAX_LENGTH - bar.length) delay⟩ : Bar).length ≤
            Bar.MAX_LENGTH := by
          simp only []
          omega
        by_cases hdone : delay - min (Bar.MAX_LENGTH - bar.length) delay = 0
        · rw [if_pos hdone]
          refine ⟨done, ⟨bar.notes, bar.length +
            min (Bar.MAX_LENGTH - bar.length) delay⟩ :: rest, rfl, ?_⟩
          intro b hb
          simp only [List.mem_append, List.mem_cons] at hb
          rcases hb with hb | rfl | hb
          · exact hinv b (by simp [hb])
          · exact hbar'
          · exact hinv b (by simp [hb])
        · rw [if_neg hdone]
          apply ih
          intro b hb
          simp only [List.append_assoc, List.singleton_append,
            List.mem_append, List.mem_cons] at hb
          rcases hb with hb | rfl | hb
          · exact hinv b (by simp [hb])
          · exact hbar'
          · exact hinv b (by simp [hb])

theorem consumeNote_ok :
    ∀ (todo done : List Bar) (midi playtime : ℤ),
      0 ≤ midi → midi ≤ 127 → 0 ≤ playtime →
      (∀ b ∈ done ++ todo, b.length ≤ Bar.MAX_LENGTH) →
      ∃ done' todo', consumeNote done todo midi playtime = .ok (done', todo') ∧
        ∀ b ∈ done' ++ todo', b.length ≤ Bar.MAX_LENGTH := by
  intro todo
  induction todo with
  | nil =>
    intro done midi playtime h1 h2 h3 hinv
    rw [consumeNote]
    split_ifs
    · exact ⟨done, [], rfl, hinv⟩
    · exact ⟨done, [], rfl, hinv⟩
  | cons bar rest ih =>
    intro done midi playtime h1 h2 h3 hinv
    rw [consumeNote]
    by_cases h0 : playtime = 0
    · rw [if_pos h0]
      exact ⟨done, bar :: rest, rfl, hinv⟩
    · rw [if_neg h0]
      dsimp only
      by_cases hrem : Bar.MAX_LENGTH - bar.length = 0
      · rw [if_pos hrem]
        have hinv' : ∀ b ∈ (done ++ [bar]) ++ rest, b.length ≤ Bar.MAX_LENGTH := by
          intro b hb
          apply hinv
          simp only [List.append_assoc, List.singleton_append] at hb ⊢
          exact hb
        exact ih (done ++ [bar]) midi playtime h1 h2 h3 hinv'
      · rw [if_neg hrem]
        have hbarle : bar.length ≤ Bar.MAX_LENGTH := hinv bar (by simp)
        have hmin : min (Bar.MAX_LENGTH - bar.length) playtime ≤
            Bar.MAX_LENGTH - bar.length := min_le_left _ _
        have hpart : 0 ≤ min (Bar.MAX_LENGTH - bar.length) playtime := by
          omega
        have hnote : mkNote midi 0 (min (Bar.MAX_LENGTH - bar.length) playtime) =
            .ok ⟨midi, 0, min (Bar.MAX_LENGTH - bar.length) playtime⟩ :=
          mkNote_eq_ok.mpr ⟨h1, h2, hpart, rfl⟩
        rw [hnote]
        simp only [Bind.bind, Except.bind]
        have hguard : ¬ bar.length +
            Note.len ⟨midi, 0, min (Bar.MAX_LENGTH - bar.length) playtime⟩ >
            Bar.MAX_LENGTH := by
          simp only [Note.len]
          omega
        rw [Bar.append_note, if_neg hguard]
        simp only [Bind.bind, Except.bind]
        have hbar' : (⟨bar.notes ++ [⟨midi, 0,
            min (Bar.MAX_LENGTH - bar.length) playtime⟩], bar.length + 0 +
            min (Bar.MAX_LENGTH - bar.length) playtime⟩ : Bar).length ≤
            Bar.MAX_LENGTH := by
          simp only []
          omega
        by_cases hdone : playtime - min (Bar.MAX_LENGTH - bar.length) playtime = 0
        · rw [if_pos hdone]
          refine ⟨done, _ :: rest, rfl, ?_⟩
          intro b hb
          simp only [List.mem_append, List.mem_cons] at hb
          rcases hb with hb | rfl | hb
          · exact hinv b (by simp [hb])
          · exact hbar'
          · exact hinv b (by simp [hb])
        · rw [if_neg hdone]
          apply ih
          · exact h1
          · exact h2
          · omega
          · intro b hb
            simp only [List.append_assoc, List.singleton_append,
              List.mem_append, List.mem_cons] at hb
            rcases hb with hb | rfl | hb
            · exact hinv b (by simp [hb])
            · exact hbar'
            · exact hinv b (by simp [hb])

theorem segment_ok :
    ∀ (notes : List Note) (done todo : List Bar),
      (∀ n ∈ notes, 0 ≤ n.midi_value ∧ n.midi_value ≤ 127 ∧ 0 ≤ n.playtime) →
      (∀ b ∈ done ++ todo, b.length ≤ Bar.MAX_LENGTH) →
      ∃ bars, segment notes done todo = .ok bars ∧
        ∀ b ∈ bars, b.length ≤ Bar.MAX_LENGTH := by
  intro notes
  induction notes with
  | nil =>
    intro done todo hn hinv
    exact ⟨done ++ todo, rfl, hinv⟩
  | cons note restNotes ih =>
    intro done todo hn hinv
    rcases todo with - | ⟨t, ts⟩
    · refine ⟨done, rfl, ?_⟩
      intro b hb
      exact hinv b (by simp [hb])
    · obtain ⟨d1, t1, hcd, hinv1⟩ :=
        consumeDelay_ok (t :: ts) done note.start_delay hinv
      obtain ⟨hm1, hm2, hm3⟩ := hn note (List.mem_cons_self note restNotes)
      obtain ⟨d2, t2, hcn, hinv2⟩ :=
        consumeNote_ok t1 d1 note.midi_value note.playtime hm1 hm2 hm3 hinv1
      obtain ⟨bars, hseg, hbars⟩ := ih d2 t2
        (fun n hmem => hn n (List.mem_cons_of_mem note hmem)) hinv2
      refine ⟨bars, ?_, hbars⟩
      rw [segment, hcd]
      · simp only [Bind.bind, Except.bind]
        rw [hcn]
        exact hseg
      · exact fun hcontr => List.noConfusion hcontr

/-- C6: `append_delay` and `append_note` raise exactly when the append would
push the accumulated length past 384 and leave the bar unchanged in that
case (the error carries no new bar); and segmentation of any list of valid
notes never reaches the overflow branch — `Melody.__init__` succeeds and
every produced bar has accumulated length at most 384. -/
theorem C6_bar_capacity :
    (∀ (b : Bar) (delay : ℤ),
      if b.length + delay > Bar.MAX_LENGTH then
        b.append_delay delay = .error "Bar length overflow error"
      else b.append_delay delay = .ok ⟨b.notes, b.length + delay⟩) ∧
    (∀ (b : Bar) (note : Note),
      if b.length + note.len > Bar.MAX_LENGTH then
        b.append_note note = .error "Bar length overflow error"
      else b.append_note note =
        .ok ⟨b.notes ++ [note], b.length + note.start_delay + note.playtime⟩) ∧
    (∀ notes : List Note,
      (∀ n ∈ notes, 0 ≤ n.midi_value ∧ n.midi_value ≤ 127 ∧ 0 ≤ n.playtime) →
      ∃ melody, mkMelody notes = .ok melody ∧
        ∀ b ∈ melody.bars, b.length ≤ Bar.MAX_LENGTH) := by
  refine ⟨?_, ?_, ?_⟩
  · intro b delay
    split_ifs with h
    · rw [Bar.append_delay, if_pos h]
    · rw [Bar.append_delay, if_neg h]
  · intro b note
    split_ifs with h
    · rw [Bar.append_note, if_pos h]
    · rw [Bar.append_note, if_neg h]
  · intro notes hn
    have hinv : ∀ b ∈ ([] : List Bar) ++
        List.replicate (Int.fdiv ((notes.map Note.len).sum)
          Bar.MAX_LENGTH).toNat mkBar, b.length ≤ Bar.MAX_LENGTH := by
      intro b hb
      simp only [List.nil_append] at hb
      rw [(List.eq_of_mem_replicate hb)]
      norm_num [mkBar, Bar.MAX_LENGTH]
    obtain ⟨bars, hseg, hbars⟩ := segment_ok notes []
      (List.replicate (Int.fdiv ((notes.map Note.len).sum)
        Bar.MAX_LENGTH).toNat mkBar) hn hinv
    refine ⟨⟨notes, bars⟩, ?_, hbars⟩
    unfold mkMelody
    dsimp only
    rw [hseg]
    rfl

/-- C6 witness: two concrete valid notes segment into two full bars with no
overflow. -/
theorem C6_witness :
    (∀ n ∈ [(⟨60, 0, 500⟩ : Note), ⟨62, 100, 300⟩],
      0 ≤ n.midi_value ∧ n.midi_value ≤ 127 ∧ 0 ≤ n.playtime) ∧
    ∃ melody, mkMelody [(⟨60, 0, 500⟩ : Note), ⟨62, 100, 300⟩] = .ok melody ∧
      ∀ b ∈ melody.bars, b.length ≤ Bar.MAX_LENGTH :=
  ⟨by decide, (C6_bar_capacity.2.2 [⟨60, 0, 500⟩, ⟨62, 100, 300⟩] (by decide))⟩

/-! ## Random-primitive lemmas -/

theorem randint_ok {a b : ℤ} (r : ℕ) (hab : a ≤ b) :
    ∃ v, randint a b r = .ok v ∧ a ≤ v ∧ v ≤ b := by
  have hn : 0 < b - a + 1 := by
    omega
  have h0 : 0 ≤ (r : ℤ) % (b - a + 1) := Int.emod_nonneg r (by omega)
  have h1 : (r : ℤ) % (b - a + 1) < b - a + 1 := Int.emod_lt_of_pos r hn
  refine ⟨a + (r : ℤ) % (b - a + 1), ?_, by omega, by omega⟩
  rw [randint, if_neg (not_lt.mpr hab)]

/-! ## C3 — crossover -/

theorem crossover_length (p1 p2 : Progression) (prob : ℚ) (src : RandSrc) (k : ℕ) :
    (Progression.crossover p1 p2 prob src k).1.chords.length =
      min p1.chords.length p2.chords.length := by
  simp [Progression.crossover]

theorem crossover_all_parent1 {p1 p2 : Progression} {prob : ℚ} {src : RandSrc}
    {k : ℕ} (hpick : ∀ i < min p1.chords.length p2.chords.length,
      ¬ src.floats (k + i) > prob) :
    (Progression.crossover p1 p2 prob src k).1.chords =
      p1.chords.take (min p1.chords.length p2.chords.length) := by
  apply List.ext_getElem
  · rw [crossover_length, List.length_take]
    omega
  · intro i h1 h2
    have hi : i < min p1.chords.length p2.chords.length := by
      rw [crossover_length] at h1
      exact h1
    have hip1 : i < p1.chords.length := lt_of_lt_of_le hi (min_le_left _ _)
    simp only [Progression.crossover, List.getElem_map, List.getElem_range,
      List.getElem_take]
    rw [if_neg (hpick i hi), List.getD_eq_getElem p1.chords _ hip1]

theorem crossover_all_parent2 {p1 p2 : Progression} {prob : ℚ} {src : RandSrc}
    {k : ℕ} (hpick : ∀ i < min p1.chords.length p2.chords.length,
      src.floats (k + i) > prob) :
    (Progression.crossover p1 p2 prob src k).1.chords =
      p2.chords.take (min p1.chords.length p2.chords.length) := by
  apply List.ext_getElem
  · rw [crossover_length, List.length_take]
    omega
  · intro i h1 h2
    have hi : i < min p1.chords.length p2.chords.length := by
      rw [crossover_length] at h1
      exact h1
    have hip2 : i < p2.chords.length := lt_of_lt_of_le hi (min_le_right _ _)
    simp only [Progression.crossover, List.getElem_map, List.getElem_range,
      List.getElem_take]
    rw [if_pos (hpick i hi), List.getD_eq_getElem p2.chords _ hip2]

/-- C3 counterexample: with `prob = 0.0`, the draw `0.0` — a legal outcome of
`random.random()` — makes `random() > 0.0` false, so the gene comes from
parent 1, not parent 2: the `prob = 0.0` case is not deterministic over all
outcomes of the random source. -/
theorem C3_counterexample :
    ((0 : ℚ) ≤ zeroSrc.floats 0 ∧ zeroSrc.floats 0 < 1) ∧
    (Progression.crossover ⟨[chordCmaj]⟩ ⟨[chordDmin]⟩ 0 zeroSrc 0).1.chords =
      [chordCmaj] ∧
    (Progression.chords ⟨[chordDmin]⟩).take 1 = [chordDmin] ∧
    chordCmaj ≠ chordDmin := by
  refine ⟨by norm_num [zeroSrc], by decide, by decide, by decide⟩

/-- C3 (amended): crossover always returns a progression of length
`min(len(p1), len(p2))` (and, being a pure function, mutates neither
parent); with `prob = 1.0` every gene comes from parent 1, deterministically
for every valid outcome of the random source; with `prob = 0.0` every gene
comes from parent 2 on every outcome whose consumed draws are all nonzero
(draw exactly 0 keeps parent 1's gene). -/
theorem C3_crossover (p1 p2 : Progression) (prob : ℚ) (src : RandSrc) (k : ℕ) :
    (Progression.crossover p1 p2 prob src k).1.chords.length =
      min p1.chords.length p2.chords.length ∧
    (validStream src → (Progression.crossover p1 p2 1 src k).1.chords =
      p1.chords.take (min p1.chords.length p2.chords.length)) ∧
    ((∀ i < min p1.chords.length p2.chords.length, 0 < src.floats (k + i)) →
      (Progression.crossover p1 p2 0 src k).1.chords =
        p2.chords.take (min p1.chords.length p2.chords.length)) := by
  refine ⟨crossover_length p1 p2 prob src k, ?_, ?_⟩
  · intro hg
    exact crossover_all_parent1
      (fun i _ => not_lt.mpr (le_of_lt (hg (k + i)).2))
  · intro hpos
    exact crossover_all_parent2 (fun i hi => hpos i hi)

/-- C3 witness: the amended theorem at two concrete one-chord parents with
the constant one-half stream. -/
theorem C3_witness :
    (Progression.crossover ⟨[chordCmaj]⟩ ⟨[chordDmin]⟩ (1/3) halfSrc 0).1.chords.length =
      min 1 1 ∧
    (Progression.crossover ⟨[chordCmaj]⟩ ⟨[chordDmin]⟩ 1 halfSrc 0).1.chords =
      [chordCmaj].take (min 1 1) ∧
    (Progression.crossover ⟨[chordCmaj]⟩ ⟨[chordDmin]⟩ 0 halfSrc 0).1.chords =
      [chordDmin].take (min 1 1) := by
  have h := C3_crossover ⟨[chordCmaj]⟩ ⟨[chordDmin]⟩ (1/3) halfSrc 0
  exact ⟨h.1, h.2.1 halfSrc_valid,
    h.2.2 (fun i _ => by norm_num [halfSrc])⟩

/-! ## C10 — mutation only swaps existing chords -/

theorem cons_getD_set_perm {α : Type} (d : α) :
    ∀ (t : List α) (j : ℕ) (a : α), j < t.length →
      (t.getD j d :: t.set j a).Perm (a :: t) := by
  intro t
  induction t with
  | nil =>
    intro j a h
    simp at h
  | cons b s ih =>
    intro j a h
    cases j with
    | zero =>
      simp only [List.getD_cons_zero, List.set_cons_zero]
      exact List.Perm.swap a b s
    | succ j =>
      simp only [List.getD_cons_succ, List.set_cons_succ]
      have hj : j < s.length := by
        simpa using h
      have step1 : (s.getD j d :: b :: s.set j a).Perm
          (b :: s.getD j d :: s.set j a) :=
        List.Perm.swap b (s.getD j d) (s.set j a)
      have step2 : (b :: s.getD j d :: s.set j a).Perm (b :: a :: s) :=
        List.Perm.cons b (ih j a hj)
      have step3 : (b :: a :: s).Perm (a :: b :: s) := List.Perm.swap a b s
      exact (step1.trans step2).trans step3

theorem swapChords_length (cs : List Chord) (i r : ℕ) :
    (swapChords cs i r).length = cs.length := by
  simp [swapChords]

theorem swapChords_perm :
    ∀ (cs : List Chord) (i r : ℕ), i < cs.length → r < cs.length →
      (swapChords cs i r).Perm cs := by
  intro cs
  induction cs with
  | nil =>
    intro i r hi hr
    simp at hi
  | cons c t ih =>
    intro i r hi hr
    cases i with
    | zero =>
      cases r with
      | zero =>
        simp [swapChords]
      | succ j =>
        have hj : j < t.length := by
          simpa using hr
        simp only [swapChords, List.getD_cons_succ, List.getD_cons_zero,
          List.set_cons_zero, List.set_cons_succ]
        exact cons_getD_set_perm _ t j c hj
    | succ m =>
      cases r with
      | zero =>
        have hm : m < t.length := by
          simpa using hi
        simp only [swapChords, List.getD_cons_succ, List.getD_cons_zero,
          List.set_cons_succ, List.set_cons_zero]
        exact cons_getD_set_perm _ t m c hm
      | succ j =>
        have hm : m < t.length := by
          simpa using hi
        have hj : j < t.length := by
          simpa using hr
        simp only [swapChords, List.getD_cons_succ, List.set_cons_succ]
        exact List.Perm.cons c (ih m j hm hj)

theorem mutateLoop_ok {cp : ℚ} {src : RandSrc} :
    ∀ (is : List ℕ) (cs : List Chord) (k : ℕ), (∀ i ∈ is, i < cs.length) →
      ∃ cs' k', mutateLoop cp src is cs k = .ok (cs', k') ∧ cs'.Perm cs := by
  intro is
  induction is with
  | nil =>
    intro cs k his
    exact ⟨cs, k, rfl, List.Perm.refl cs⟩
  | cons i is ih =>
    intro cs k his
    have hicur : i < cs.length := his i (List.mem_cons_self i is)
    have hlen : (0 : ℤ) ≤ (cs.length : ℤ) - 1 := by
      have := hicur
      omega
    rw [mutateLoop]
    by_cases hcp : src.floats k > cp
    · rw [if_pos hcp]
      obtain ⟨r, hr, hr0, hr1⟩ := randint_ok (src.ints (k + 1)) hlen
      rw [hr]
      simp only [Bind.bind, Except.bind]
      have hrn : r.toNat < cs.length := by
        rw [Int.toNat_lt hr0]
        omega
      obtain ⟨cs', k', hloop, hperm⟩ := ih (swapChords cs i r.toNat) (k + 2)
        (by
          intro j hj
          rw [swapChords_length]
          exact his j (List.mem_cons_of_mem i hj))
      refine ⟨cs', k', hloop, ?_⟩
      exact hperm.trans (swapChords_perm cs i r.toNat hicur hrn)
    · rw [if_neg hcp]
      exact ih cs (k + 1) (fun j hj => his j (List.mem_cons_of_mem i hj))

theorem mutate_ok {invoke_prob change_prob : ℚ} {src : RandSrc}
    (p : Progression) (k : ℕ) :
    ∃ p' k', p.mutate invoke_prob change_prob src k = .ok (p', k') ∧
      p'.chords.Perm p.chords := by
  unfold Progression.mutate
  by_cases hi : src.floats k < invoke_prob
  · rw [if_pos hi]
    obtain ⟨cs', k', hloop, hperm⟩ := mutateLoop_ok
      (List.range p.chords.length) p.chords (k + 1)
      (fun i hmem => List.mem_range.mp hmem)
    rw [hloop]
    simp only [Bind.bind, Except.bind]
    exact ⟨⟨cs'⟩, k', rfl, hperm⟩
  · rw [if_neg hi]
    exact ⟨p, k + 1, rfl, List.Perm.refl _⟩

/-- C10: for every progression, mutation probabilities and valid outcome of
the random source, `mutate` succeeds and returns a progression whose chord
list is a permutation of the input's — same length, same multiset of chords
(swap mutation neither adds nor removes a chord); in-place semantics appear
as the function returning the updated chord list itself. -/
theorem C10_mutate (p : Progression) (invoke_prob change_prob : ℚ)
    (src : RandSrc) (k : ℕ) :
    ∃ p' k', p.mutate invoke_prob change_prob src k = .ok (p', k') ∧
      p'.chords.Perm p.chords ∧
      p'.chords.length = p.chords.length ∧
      (p'.chords : Multiset Chord) = (p.chords : Multiset Chord) := by
  obtain ⟨p', k', hmut, hperm⟩ := mutate_ok p k
  exact ⟨p', k', hmut, hperm, hperm.length_eq, Multiset.coe_eq_coe.mpr hperm⟩

/-! ## C4 — the tonic literal table -/

/-- C4: the claim is right and the code is wrong.  `__SHARP_LITERALS` holds
the string `C#` at index 8 where the canonical table has `G#`, so the
canonical literal `G#` is absent: `list.index` (hence `KeyChords`
construction, in both files) raises for `G#` instead of resolving it to
pitch class 8.  The other 11 canonical literals do resolve to their own
pitch-class index. -/
theorem C4_literal_table :
    SHARP_LITERALS.getD 8 "" = "C#" ∧
    literalIndex "G#" = .error "is not in list" ∧
    keyChords melodyC "G#" Mode.MAJOR 384 = .error "is not in list" ∧
    keyChordsD melodyC "G#" Mode.MINOR 384 = .error "is not in list" ∧
    ([("C", (0 : ℤ)), ("C#", 1), ("D", 2), ("D#", 3), ("E", 4), ("F", 5),
      ("F#", 6), ("G", 7), ("A", 9), ("A#", 10), ("B", 11)].all
      (fun pr =>
        match keyChords melodyC pr.1 Mode.MAJOR 384 with
        | .ok kc => kc.initial_note.octave_value == pr.2
        | .error _ => false)) = true := by
  refine ⟨rfl, rfl, rfl, rfl, ?_⟩
  decide

/-! ## Sorting lemmas for the selection step -/

theorem insertDesc_perm (key : Progression → ℤ) (x : Progression) :
    ∀ l, (insertDesc key x l).Perm (x :: l) := by
  intro l
  induction l with
  | nil => exact List.Perm.refl [x]
  | cons y ys ih =>
    rw [insertDesc]
    by_cases h : key x > key y
    · rw [if_pos h]
    · rw [if_neg h]
      exact (List.Perm.cons y ih).trans (List.Perm.swap x y ys)

theorem sortDesc_perm (key : Progression → ℤ) :
    ∀ l, (sortDesc key l).Perm l := by
  intro l
  induction l with
  | nil => exact List.Perm.refl []
  | cons x xs ih =>
    rw [sortDesc]
    exact (insertDesc_perm key x (sortDesc key xs)).trans (List.Perm.cons x ih)

theorem headD_mem {α : Type} {l : List α} (d : α) (h : l ≠ []) : l.headD d ∈ l := by
  cases l with
  | nil => exact absurd rfl h
  | cons a t => exact List.mem_cons_self a t

theorem headD_mem_take {α : Type} {l : List α} {n : ℕ} (d : α) (h : l ≠ [])
    (hn : 1 ≤ n) : l.headD d ∈ l.take n := by
  cases l with
  | nil => exact absurd rfl h
  | cons a t =>
    cases n with
    | zero => omega
    | succ m => simp

theorem insertDesc_headD_ge {key : Progression → ℤ} {d : Progression}
    (x : Progression) (l : List Progression)
    (hl : ∀ y ∈ l, key y ≤ key (l.headD d)) :
    ∀ y ∈ insertDesc key x l, key y ≤ key ((insertDesc key x l).headD d) := by
  cases l with
  | nil =>
    intro y hy
    simp only [insertDesc, List.mem_singleton] at hy
    subst hy
    simp [insertDesc]
  | cons z zs =>
    rw [insertDesc]
    by_cases h : key x > key z
    · rw [if_pos h]
      intro y hy
      rcases List.mem_cons.mp hy with rfl | hy
      · simp
      · simp only [List.headD_cons]
        have := hl y hy
        simp only [List.headD_cons] at this
        omega
    · rw [if_neg h]
      intro y hy
      rcases List.mem_cons.mp hy with rfl | hy
      · simp
      · simp only [List.headD_cons]
        have hy' : y ∈ x :: zs := (insertDesc_perm key x zs).mem_iff.mp hy
        rcases List.mem_cons.mp hy' with rfl | hy2
        · omega
        · have := hl y (List.mem_cons_of_mem z hy2)
          simp only [List.headD_cons] at this
          exact this

theorem sortDesc_headD_ge {key : Progression → ℤ} {d : Progression} :
    ∀ l, ∀ y ∈ sortDesc key l, key y ≤ key ((sortDesc key l).headD d) := by
  intro l
  induction l with
  | nil => simp [sortDesc]
  | cons x xs ih =>
    rw [sortDesc]
    exact insertDesc_headD_ge x (sortDesc key xs) ih

theorem sortDesc_headD_ge_all {key : Progression → ℤ} {d : Progression}
    {l : List Progression} : ∀ y ∈ l, key y ≤ key ((sortDesc key l).headD d) :=
  fun y hy => sortDesc_headD_ge l y ((sortDesc_perm key l).mem_iff.mpr hy)

theorem exists_max_fitness (key : Progression → ℤ) {l : List Progression}
    (hne : l ≠ []) : ∃ q ∈ l, ∀ r ∈ l, key r ≤ key q := by
  have hsne : sortDesc key l ≠ [] := by
    intro hempty
    have := (sortDesc_perm key l).length_eq
    rw [hempty] at this
    simp only [List.length_nil] at this
    exact hne (List.eq_nil_of_length_eq_zero this.symm)
  refine ⟨(sortDesc key l).headD ⟨[]⟩, ?_, ?_⟩
  · exact (sortDesc_perm key l).mem_iff.mp (headD_mem ⟨[]⟩ hsne)
  · exact fun r hr => sortDesc_headD_ge_all r hr

/-! ## Population-step lemmas -/

theorem sample2_ok {lst : List Progression} {src : RandSrc} (k : ℕ)
    (hlen : 2 ≤ lst.length) :
    ∃ p1 p2, sample2 lst src k = .ok (p1, p2, k + 2) ∧ p1 ∈ lst ∧ p2 ∈ lst := by
  unfold sample2
  rw [if_neg (by omega)]
  have hb1 : (0 : ℤ) ≤ (lst.length : ℤ) - 1 := by
    omega
  have hb2 : (0 : ℤ) ≤ (lst.length : ℤ) - 2 := by
    omega
  obtain ⟨i, hi, hi0, hi1⟩ := randint_ok (src.ints k) hb1
  rw [hi]
  simp only [Bind.bind, Except.bind]
  obtain ⟨j0, hj0, hj00, hj01⟩ := randint_ok (src.ints (k + 1)) hb2
  rw [hj0]
  simp only [Bind.bind, Except.bind]
  have hiN : i.toNat < lst.length := by
    rw [Int.toNat_lt hi0]
    omega
  have hjN : (if i ≤ j0 then j0 + 1 else j0).toNat < lst.length := by
    split_ifs with hij
    · rw [Int.toNat_lt (by omega)]
      omega
    · rw [Int.toNat_lt hj00]
      omega
  refine ⟨lst.getD i.toNat ⟨[]⟩, lst.getD (if i ≤ j0 then j0 + 1 else j0).toNat ⟨[]⟩,
    rfl, ?_, ?_⟩
  · rw [List.getD_eq_getElem lst _ hiN]
    exact List.getElem_mem hiN
  · rw [List.getD_eq_getElem lst _ hjN]
    exact List.getElem_mem hjN

theorem refill_ok {selection_factor : ℕ} {src : RandSrc}
    (hsel : 1 ≤ selection_factor) {B : ℕ} :
    ∀ (count : ℕ) (survived : List Progression) (k : ℕ),
      2 ≤ survived.length → (∀ q ∈ survived, q.chords.length = B) →
      ∃ extra k', refill selection_factor src count survived k =
          .ok (survived ++ extra, k') ∧
        (∀ q ∈ survived ++ extra, q.chords.length = B) ∧
        (survived ++ extra).length = survived.length + count := by
  intro count
  induction count with
  | zero =>
    intro survived k h2 hB
    refine ⟨[], k, ?_, ?_, by simp⟩
    · rw [List.append_nil]
      rfl
    · rw [List.append_nil]
      exact hB
  | succ n ih =>
    intro survived k h2 hB
    rw [refill]
    have hbr : (0 : ℤ) ≤ (selection_factor : ℤ) - 1 := by
      omega
    obtain ⟨ri, hri, -, -⟩ := randint_ok (src.ints k) hbr
    rw [hri]
    simp only [Bind.bind, Except.bind]
    obtain ⟨p1, p2, hsamp, hp1, hp2⟩ := sample2_ok (k + 1) h2
    rw [hsamp]
    simp only [Bind.bind, Except.bind]
    obtain ⟨child', k₃, hmut, hperm⟩ :=
      mutate_ok (Progression.crossover p1 p2 (1/5) src (k + 1 + 2)).1
        (Progression.crossover p1 p2 (1/5) src (k + 1 + 2)).2
    rw [hmut]
    simp only [Bind.bind, Except.bind]
    have hchild : child'.chords.length = B := by
      rw [hperm.length_eq, crossover_length, hB p1 hp1, hB p2 hp2]
      simp
    have hB' : ∀ q ∈ survived ++ [child'], q.chords.length = B := by
      intro q hq
      rcases List.mem_append.mp hq with hq | hq
      · exact hB q hq
      · rw [List.mem_singleton.mp hq]
        exact hchild
    obtain ⟨extra', k', hrf, hBall, hlen'⟩ := ih (survived ++ [child']) k₃
      (by rw [List.length_append]; omega) hB'
    refine ⟨child' :: extra', k', ?_, ?_, ?_⟩
    · rw [hrf]
      simp
    · intro q hq
      apply hBall
      simp only [List.append_assoc, List.singleton_append] at hq ⊢
      exact hq
    · simp only [List.length_append, List.length_cons] at hlen' ⊢
      omega

theorem generationStep_ok {key_chords : KeyChords} {melody : Melody}
    {population_size selection_factor : ℕ} {pop : List Progression}
    {src : RandSrc} {k : ℕ} (hsel2 : 2 ≤ selection_factor)
    (hsp : selection_factor ≤ population_size)
    (hlen : pop.length = population_size) {B : ℕ}
    (hB : ∀ q ∈ pop, q.chords.length = B) :
    ∃ pop' k', generationStep key_chords melody population_size
        selection_factor pop src k = .ok (pop', k') ∧
      pop'.length = population_size ∧ (∀ q ∈ pop', q.chords.length = B) ∧
      ∃ q ∈ pop', ∀ r ∈ pop,
        r.fitness key_chords melody ≤ q.fitness key_chords melody := by
  have hperm := sortDesc_perm (fun p => p.fitness key_chords melody) pop
  have hslen : (sortDesc (fun p => p.fitness key_chords melody) pop).length =
      population_size := by
    rw [hperm.length_eq, hlen]
  have hsne : sortDesc (fun p => p.fitness key_chords melody) pop ≠ [] := by
    intro hempty
    rw [hempty] at hslen
    simp only [List.length_nil] at hslen
    omega
  have hsurvlen : ((sortDesc (fun p => p.fitness key_chords melody) pop).take
      selection_factor).length = selection_factor := by
    rw [List.length_take, hslen]
    omega
  have hBsurv : ∀ q ∈ (sortDesc (fun p => p.fitness key_chords melody) pop).take
      selection_factor, q.chords.length = B := by
    intro q hq
    exact hB q (hperm.mem_iff.mp (List.mem_of_mem_take hq))
  obtain ⟨extra, k', hrf, hBall, hlenall⟩ :=
    refill_ok (show 1 ≤ selection_factor by omega)
      (population_size - selection_factor)
      ((sortDesc (fun p => p.fitness key_chords melody) pop).take
        selection_factor) k (by rw [hsurvlen]; exact hsel2) hBsurv
  refine ⟨_, k', ?_, ?_, hBall, ?_⟩
  · unfold generationStep
    exact hrf
  · rw [hlenall, hsurvlen]
    omega
  · refine ⟨(sortDesc (fun p => p.fitness key_chords melody) pop).headD ⟨[]⟩,
      ?_, ?_⟩
    · exact List.mem_append_left extra (headD_mem_take ⟨[]⟩ hsne (by omega))
    · exact fun r hr => @sortDesc_headD_ge_all
        (fun p => p.fitness key_chords melody) ⟨[]⟩ _ r hr

theorem runGenerations_ok {key_chords : KeyChords} {melody : Melody}
    {population_size selection_factor : ℕ} {src : RandSrc}
    (hsel2 : 2 ≤ selection_factor) (hsp : selection_factor ≤ population_size)
    {B : ℕ} :
    ∀ (n : ℕ) (pop : List Progression) (k : ℕ),
      pop.length = population_size → (∀ q ∈ pop, q.chords.length = B) →
      ∃ popF k', runGenerations key_chords melody population_size
          selection_factor src n pop k = .ok (popF, k') ∧
        popF.length = population_size ∧ (∀ q ∈ popF, q.chords.length = B) ∧
        ∃ q ∈ popF, ∀ r ∈ pop,
          r.fitness key_chords melody ≤ q.fitness key_chords melody := by
  intro n
  induction n with
  | zero =>
    intro pop k hlen hB
    have hne : pop ≠ [] := by
      intro hempty
      rw [hempty] at hlen
      simp only [List.length_nil] at hlen
      omega
    obtain ⟨q, hq, hqmax⟩ :=
      exists_max_fitness (fun p => p.fitness key_chords melody) hne
    exact ⟨pop, k, rfl, hlen, hB, q, hq, hqmax⟩
  | succ n ih =>
    intro pop k hlen hB
    obtain ⟨pop₁, k₁, hstep, hlen₁, hB₁, q₁, hq₁, hq₁max⟩ :=
      generationStep_ok hsel2 hsp hlen hB
    obtain ⟨popF, k', hrun, hlenF, hBF, q, hq, hqmax⟩ := ih pop₁ k₁ hlen₁ hB₁
    refine ⟨popF, k', ?_, hlenF, hBF, q, hq, ?_⟩
    · rw [runGenerations, hstep]
      simp only [Bind.bind, Except.bind]
      exact hrun
    · intro r hr
      have h1 := hq₁max r hr
      have h2 := hqmax q₁ hq₁
      omega

theorem mapE_ok_of_forall {α β : Type} {f : α → Except String β} :
    ∀ {l : List α}, (∀ a ∈ l, ∃ b, f a = .ok b) →
      ∃ l', mapE f l = .ok l' ∧ l'.length = l.length := by
  intro l
  induction l with
  | nil => exact fun _ => ⟨[], rfl, rfl⟩
  | cons a as ih =>
    intro hall
    obtain ⟨b, hb⟩ := hall a (List.mem_cons_self a as)
    obtain ⟨bs, hbs, hbl⟩ := ih (fun x hx => hall x (List.mem_cons_of_mem a hx))
    refine ⟨b :: bs, ?_, by simp [hbl]⟩
    rw [mapE, hb]
    simp only [Bind.bind, Except.bind]
    rw [hbs]

theorem randomProgression_ok {key_chords : KeyChords} {numBars : ℕ}
    {src : RandSrc} (k : ℕ) (hch : key_chords.chords ≠ []) :
    ∃ p, randomProgression key_chords numBars src k = .ok (p, k + numBars) ∧
      p.chords.length = numBars := by
  have hlen : 1 ≤ key_chords.chords.length := by
    cases hc : key_chords.chords with
    | nil => exact absurd hc hch
    | cons a t => simp
  obtain ⟨picks, hpicks, hplen⟩ := mapE_ok_of_forall
    (l := List.range numBars)
    (f := fun i => randint 0 ((key_chords.chords.length : ℤ) - 1)
      (src.ints (k + i)))
    (fun i _ => by
      obtain ⟨r, hr, -, -⟩ := randint_ok (src.ints (k + i)) (show (0 : ℤ) ≤
        (key_chords.chords.length : ℤ) - 1 by omega)
      exact ⟨r, hr⟩)
  refine ⟨⟨picks.map (fun r => key_chords.chords.getD r.toNat
    ⟨[], Mode.MAJOR, 0, false⟩)⟩, ?_, ?_⟩
  · unfold randomProgression
    rw [hpicks]
    rfl
  · simp [hplen]

theorem initPopulation_ok {key_chords : KeyChords} {numBars : ℕ}
    {src : RandSrc} (hch : key_chords.chords ≠ []) :
    ∀ (population_size k : ℕ),
      ∃ pop k', initPopulation population_size key_chords numBars src k =
          .ok (pop, k') ∧
        pop.length = population_size ∧ ∀ q ∈ pop, q.chords.length = numBars := by
  intro population_size
  induction population_size with
  | zero => exact fun k => ⟨[], k, rfl, rfl, by simp⟩
  | succ n ih =>
    intro k
    obtain ⟨p, hp, hplen⟩ := randomProgression_ok k hch
    obtain ⟨pop, k', hpop, hpoplen, hB⟩ := ih (k + numBars)
    refine ⟨p :: pop, k', ?_, by simp [hpoplen], ?_⟩
    · rw [initPopulation, hp]
      simp only [Bind.bind, Except.bind]
      rw [hpop]
    · intro q hq
      rcases List.mem_cons.mp hq with rfl | hq
      · exact hplen
      · exact hB q hq

/-! ## C2 — elitism: the result beats the whole initial population -/

/-- C2: for every melody with at least one bar, every nonempty key-chord
pool (every constructed pool is nonempty), every generation budget and
every population/selection size with `2 ≤ selection_factor ≤
population_size` (the defaults are 10 and 100), and every valid outcome of
the random source, `best_progression` raises nothing and returns a
progression whose length equals the number of melody bars and whose fitness
is at least the fitness of every member of the initial random population. -/
theorem C2_best_progression_elitism (melody : Melody) (key_chords : KeyChords)
    (generation_limit population_size selection_factor k : ℕ) (src : RandSrc)
    (_hbars : melody.bars ≠ [])
    (hch : key_chords.chords ≠ []) (hsel2 : 2 ≤ selection_factor)
    (hsp : selection_factor ≤ population_size) :
    ∃ pop₀ k₁ best k₂,
      initPopulation population_size key_chords melody.bars.length src k =
        .ok (pop₀, k₁) ∧
      bestProgression melody key_chords generation_limit population_size
        selection_factor src k = .ok (best, k₂) ∧
      best.chords.length = melody.bars.length ∧
      ∀ q ∈ pop₀,
        q.fitness key_chords melody ≤ best.fitness key_chords melody := by
  obtain ⟨pop₀, k₁, hinit, hlen₀, hB₀⟩ :=
    initPopulation_ok hch population_size k
  obtain ⟨popF, k₂, hrun, hlenF, hBF, q, hqF, hqmax⟩ :=
    runGenerations_ok hsel2 hsp generation_limit pop₀ k₁ hlen₀ hB₀
  have hFne : popF ≠ [] := by
    intro hempty
    rw [hempty] at hlenF
    simp only [List.length_nil] at hlenF
    omega
  have hsne : sortDesc (fun p => p.fitness key_chords melody) popF ≠ [] := by
    intro hempty
    have := (sortDesc_perm (fun p => p.fitness key_chords melody) popF).length_eq
    rw [hempty] at this
    simp only [List.length_nil] at this
    exact hFne (List.eq_nil_of_length_eq_zero this.symm)
  obtain ⟨best, rest, hcons⟩ := List.exists_cons_of_ne_nil hsne
  have hbestF : best ∈ popF := by
    have : best ∈ sortDesc (fun p => p.fitness key_chords melody) popF := by
      rw [hcons]
      exact List.mem_cons_self best rest
    exact (sortDesc_perm (fun p => p.fitness key_chords melody) popF).mem_iff.mp
      this
  refine ⟨pop₀, k₁, best, k₂, hinit, ?_, hBF best hbestF, ?_⟩
  · unfold bestProgression
    rw [hinit]
    simp only [Bind.bind, Except.bind]
    rw [hrun]
    simp only [Bind.bind, Except.bind]
    rw [hcons]
  · intro r hr
    have h1 := hqmax r hr
    have h2 : q.fitness key_chords melody ≤ best.fitness key_chords melody := by
      have h3 := @sortDesc_headD_ge_all
        (fun p => p.fitness key_chords melody) ⟨[]⟩ popF q hqF
      rw [hcons] at h3
      simpa using h3
    omega

/-- C2 witness: the elitism theorem at the concrete one-bar melody,
one-chord pool, one generation, population size 3, selection factor 2, and
the all-zero stream. -/
theorem C2_witness :
    ∃ pop₀ k₁ best k₂,
      initPopulation 3 kcC melodyC.bars.length zeroSrc 0 = .ok (pop₀, k₁) ∧
      bestProgression melodyC kcC 1 3 2 zeroSrc 0 = .ok (best, k₂) ∧
      best.chords.length = melodyC.bars.length ∧
      ∀ q ∈ pop₀, q.fitness kcC melodyC ≤ best.fitness kcC melodyC :=
  C2_best_progression_elitism melodyC kcC 1 3 2 0 zeroSrc
    (by decide) (by decide) (by omega) (by omega)

/-! ## C1 — no selection-factor validation -/

theorem generationStep_ge {key_chords : KeyChords} {melody : Melody}
    {population_size selection_factor : ℕ} {pop : List Progression}
    {src : RandSrc} {k : ℕ} (hsp : population_size ≤ selection_factor)
    (hlen : pop.length ≤ selection_factor) :
    generationStep key_chords melody population_size selection_factor pop src k =
      .ok (sortDesc (fun p => p.fitness key_chords melody) pop, k) := by
  unfold generationStep
  rw [Nat.sub_eq_zero_of_le hsp]
  show refill selection_factor src 0 (List.take selection_factor
    (sortDesc (fun p => p.fitness key_chords melody) pop)) k = _
  rw [List.take_of_length_le]
  · rfl
  · rw [(sortDesc_perm (fun p => p.fitness key_chords melody) pop).length_eq]
    exact hlen

theorem runGenerations_ge {key_chords : KeyChords} {melody : Melody}
    {population_size selection_factor : ℕ} {src : RandSrc}
    (hsp : population_size ≤ selection_factor) :
    ∀ (n : ℕ) (pop : List Progression) (k : ℕ), pop.length ≤ selection_factor →
      ∃ popF, runGenerations key_chords melody population_size
          selection_factor src n pop k = .ok (popF, k) ∧ popF.Perm pop := by
  intro n
  induction n with
  | zero => exact fun pop k _ => ⟨pop, rfl, List.Perm.refl pop⟩
  | succ n ih =>
    intro pop k hlen
    have hperm := sortDesc_perm (fun p => p.fitness key_chords melody) pop
    obtain ⟨popF, hrun, hpermF⟩ := ih
      (sortDesc (fun p => p.fitness key_chords melody) pop) k
      (by rw [hperm.length_eq]; exact hlen)
    refine ⟨popF, ?_, hpermF.trans hperm⟩
    rw [runGenerations, generationStep_ge hsp hlen]
    simp only [Bind.bind, Except.bind]
    exact hrun

/-- C1 counterexample: with `population_size = 1` and `selection_factor = 2`
(strictly greater), `best_progression` raises no ConfigurationError — no
such check exists — and returns a Progression, consuming exactly the one
draw used to build the initial population. -/
theorem C1_counterexample :
    1 < 2 ∧
    bestProgression melodyC kcC 1 1 2 zeroSrc 0 =
      .ok (⟨[chordCmaj]⟩, 1) := by
  exact ⟨by omega, by decide⟩

/-- C1 (amended): `best_progression` performs no validation of
`selection_factor` against `population_size`.  When `selection_factor >
population_size ≥ 1` (with a nonempty pool and a valid random source) it
raises nothing: the elitist slice keeps the whole sorted population, the
refill loop runs zero times (`range` of a negative number is empty), no
randomness is consumed after initialization, and the returned value is a
best-fitness member of the initial random population. -/
theorem C1_no_selection_validation (melody : Melody) (key_chords : KeyChords)
    (generation_limit population_size selection_factor k : ℕ) (src : RandSrc)
    (hch : key_chords.chords ≠ [])
    (hpos : 1 ≤ population_size) (hgt : population_size < selection_factor) :
    ∃ pop₀ k₁ best,
      initPopulation population_size key_chords melody.bars.length src k =
        .ok (pop₀, k₁) ∧
      bestProgression melody key_chords generation_limit population_size
        selection_factor src k = .ok (best, k₁) ∧
      best ∈ pop₀ ∧
      ∀ q ∈ pop₀,
        q.fitness key_chords melody ≤ best.fitness key_chords melody := by
  obtain ⟨pop₀, k₁, hinit, hlen₀, hB₀⟩ :=
    initPopulation_ok hch population_size k
  obtain ⟨popF, hrun, hpermF⟩ := runGenerations_ge (le_of_lt hgt)
    generation_limit pop₀ k₁ (by omega)
  have hFne : popF ≠ [] := by
    intro hempty
    have := hpermF.length_eq
    rw [hempty, hlen₀] at this
    simp only [List.length_nil] at this
    omega
  have hsne : sortDesc (fun p => p.fitness key_chords melody) popF ≠ [] := by
    intro hempty
    have := (sortDesc_perm (fun p => p.fitness key_chords melody) popF).length_eq
    rw [hempty] at this
    simp only [List.length_nil] at this
    exact hFne (List.eq_nil_of_length_eq_zero this.symm)
  obtain ⟨best, rest, hcons⟩ := List.exists_cons_of_ne_nil hsne
  have hbestF : best ∈ popF := by
    have : best ∈ sortDesc (fun p => p.fitness key_chords melody) popF := by
      rw [hcons]
      exact List.mem_cons_self best rest
    exact (sortDesc_perm (fun p => p.fitness key_chords melody) popF).mem_iff.mp
      this
  refine ⟨pop₀, k₁, best, hinit, ?_, hpermF.mem_iff.mp hbestF, ?_⟩
  · unfold bestProgression
    rw [hinit]
    simp only [Bind.bind, Except.bind]
    rw [hrun]
    simp only [Bind.bind, Except.bind]
    rw [hcons]
  · intro r hr
    have h2 : r.fitness key_chords melody ≤ best.fitness key_chords melody := by
      have h3 := @sortDesc_headD_ge_all
        (fun p => p.fitness key_chords melody) ⟨[]⟩ popF r (hpermF.mem_iff.mpr hr)
      rw [hcons] at h3
      simpa using h3
    exact h2

/-- C1 witness: the amended theorem at population size 1 and selection
factor 2. -/
theorem C1_witness :
    ∃ pop₀ k₁ best,
      initPopulation 1 kcC melodyC.bars.length zeroSrc 0 = .ok (pop₀, k₁) ∧
      bestProgression melodyC kcC 1 1 2 zeroSrc 0 = .ok (best, k₁) ∧
      best ∈ pop₀ ∧
      ∀ q ∈ pop₀, q.fitness kcC melodyC ≤ best.fitness kcC melodyC :=
  C1_no_selection_validation melodyC kcC 1 1 2 0 zeroSrc
    (by decide) (by omega) (by omega)

end IaiMusic
